import Mathlib

/-!
Verification development for the Luma sales-model optimization subsystem.

The definitions below are a shallow embedding of the Python sources:

* `streamlit_app/utils/constraint_handler.py` (nested parameter dictionaries,
  boundary / distribution / relationship constraints, validation and repair),
* `streamlit_app/utils/optimization_monitor.py` (the convergence monitor),
* `streamlit_app/utils/optimization.py` (grid search),
* `streamlit_app/utils/realistic_constraints.py` (the realism penalty),
* `streamlit_app/utils/ensemble_optimizer.py` (result fusion and failure
  isolation),

followed by theorems about those definitions.  Numeric values are modelled as
exact rationals (ℚ); Python float arithmetic is idealized as exact field
arithmetic, and the IEEE value `-inf` used as a sentinel is modelled by an
explicit `Score.negInf` constructor where the code can produce it.  Python
exceptions are modelled with `Except`: a function that can raise returns
`Except Unit _` (or `Except LookupErr _` for the two lookup failures the code
distinguishes: `KeyError` from a missing dictionary key and `TypeError` from
subscripting / comparing a non-dictionary value).
-/

namespace LumaSpec

/-- Decidable equality for `Except`, used to state concrete evaluations. -/
instance {ε α : Type} [DecidableEq ε] [DecidableEq α] : DecidableEq (Except ε α) := fun a b =>
  match a, b with
  | .ok x, .ok y =>
    if h : x = y then .isTrue (by rw [h]) else .isFalse (fun c => by injection c; exact h (by assumption))
  | .error x, .error y =>
    if h : x = y then .isTrue (by rw [h]) else .isFalse (fun c => by injection c; exact h (by assumption))
  | .ok _, .error _ => .isFalse (fun c => by injection c)
  | .error _, .ok _ => .isFalse (fun c => by injection c)

/-!
## Parameter dictionaries

A Python parameter dictionary (`params: Dict[str, Any]`) is a finite map from
string keys to values that are either numbers or nested dictionaries.  We model
it as a mutual inductive: `PVal` is a value (number or dictionary), `PDict` is
an association list of entries in Python dictionary insertion order.
-/

mutual
inductive PVal where
  | leaf (v : ℚ)
  | node (d : PDict)
deriving DecidableEq
inductive PDict where
  | nil
  | cons (k : String) (v : PVal) (rest : PDict)
deriving DecidableEq
end

/-- Dictionary key lookup (`d[k]` returning `none` for a `KeyError`). -/
def PDict.find : PDict → String → Option PVal
  | .nil, _ => none
  | .cons k' v rest, k => if k' = k then some v else PDict.find rest k

/-- Dictionary item assignment `d[k] = v`: updates the existing entry in place
(keeping its position, as CPython dictionaries do) or appends a new entry. -/
def PDict.set : PDict → String → PVal → PDict
  | .nil, k, v => .cons k v .nil
  | .cons k' v' rest, k, v =>
    if k' = k then .cons k v rest else .cons k' v' (PDict.set rest k v)

/-- The two lookup failures distinguished by the source: `KeyError` (missing
key) and `TypeError` (subscripting or numerically using a non-dictionary). -/
inductive LookupErr where
  | keyErr
  | typeErr
deriving DecidableEq

/-- Helper for `split_dotted`: scan the characters, cutting at each dot. -/
def split_chars : List Char → List Char → List String
  | [], acc => [⟨acc.reverse⟩]
  | c :: rest, acc =>
    if c = '.' then ⟨acc.reverse⟩ :: split_chars rest [] else split_chars rest (c :: acc)

/-- Python `param_path.split('.')`. -/
def split_dotted (s : String) : List String := split_chars s.toList []

/-- `_get_nested_param_value`: walk a dotted path (already split on the dots)
through nested dictionaries.  A missing key raises `KeyError`; stepping into a
number raises `TypeError` (a float is not subscriptable). -/
def get_nested_param_value : PVal → List String → Except LookupErr PVal
  | v, [] => .ok v
  | .leaf _, _ :: _ => .error .typeErr
  | .node es, k :: ks =>
    match es.find k with
    | none => .error .keyErr
    | some v => get_nested_param_value v ks

/-- A nested read whose result is then used numerically (compared or summed):
obtaining a dictionary where a number is needed raises `TypeError`. -/
def get_nested_numeric (t : PVal) (p : List String) : Except LookupErr ℚ :=
  match get_nested_param_value t p with
  | .ok (.leaf v) => .ok v
  | .ok (.node _) => .error .typeErr
  | .error e => .error e

/-- `_set_nested_param_value`: walk the path, creating empty dictionaries for
missing intermediate keys; traversing through a number raises `TypeError`
(modelled as `.error ()`); finally assign the numeric value at the last key. -/
def set_nested_param_value : PVal → List String → ℚ → Except Unit PVal
  | .node es, [k], v => .ok (.node (es.set k (.leaf v)))
  | .node es, k :: k2 :: ks, v =>
    (match es.find k with
     | some t => (set_nested_param_value t (k2 :: ks) v).map (fun t' => .node (es.set k t'))
     | none =>
       (set_nested_param_value (.node .nil) (k2 :: ks) v).map (fun t' => .node (es.set k t')))
  | .leaf _, _, _ => .error ()
  | .node _, [], _ => .error ()

/-!
## Constraint handler (`constraint_handler.py`)

Identifiers (dotted parameter paths) are modelled pre-split on the dots: the
source stores the dotted string and calls `param_path.split('.')` at every
use, which is observationally the same as splitting once at registration.
Violation messages are abstracted to tags recording which constraint was
flagged (`checkErr` stands for the "检查时出错" message produced when a
constraint check raises).
-/

/-- A sum-to-target ("distribution") constraint. -/
structure DistributionConstraint where
  params : List (List String)
  target_sum : ℚ
deriving DecidableEq

/-- A relationship constraint: an arbitrary predicate over the whole parameter
dictionary (it may itself raise), plus the identifiers it declares. -/
structure RelationshipConstraint where
  params : List (List String)
  func : PVal → Except Unit Bool

/-- The registered constraint set of a `ConstraintHandler`.
`boundary_constraints` is a Python dict, so its keys are unique; theorems that
need that fact take it as an explicit hypothesis. -/
structure ConstraintHandler where
  boundary_constraints : List (List String × ℚ × ℚ)
  distribution_constraints : List DistributionConstraint
  relationship_constraints : List RelationshipConstraint
  constraint_tolerance : ℚ := 1 / 1000000

/-- Violation tags (abstracting the human-readable messages). -/
inductive Violation where
  | boundary (p : List String)
  | distribution (c : DistributionConstraint)
  | relationship (i : ℕ)
  | checkErr (i : ℕ)
deriving DecidableEq

/-- `_check_boundary_constraints`: a `KeyError` skips the constraint, an
out-of-range value appends a violation, and a `TypeError` propagates (only
`KeyError` is caught in the source). -/
def check_boundary_constraints : List (List String × ℚ × ℚ) → PVal → Except Unit (List Violation)
  | [], _ => .ok []
  | (p, mn, mx) :: rest, t =>
    match get_nested_numeric t p with
    | .ok v =>
      (check_boundary_constraints rest t).map
        (fun vs => if v < mn ∨ v > mx then .boundary p :: vs else vs)
    | .error .keyErr => check_boundary_constraints rest t
    | .error .typeErr => .error ()

/-- Collect the values of a distribution constraint's identifiers: present
values in order, plus the list of missing (KeyError) identifiers.  A
`TypeError` escapes the inner `except KeyError` and aborts the collection
(in the numeric case the same abort happens at the later `sum(...)` call,
with the same net effect on the enclosing handler). -/
def collect_param_values : List (List String) → PVal → Except Unit (List (List String × ℚ) × List (List String))
  | [], _ => .ok ([], [])
  | p :: rest, t =>
    match get_nested_numeric t p with
    | .ok v => (collect_param_values rest t).map (fun (vs, ms) => ((p, v) :: vs, ms))
    | .error .keyErr => (collect_param_values rest t).map (fun (vs, ms) => (vs, p :: ms))
    | .error .typeErr => .error ()

/-- `_check_distribution_constraints`: any missing identifier skips the
constraint; otherwise the sum is compared with the target up to the
tolerance; any exception during the check is caught and flagged. -/
def check_distribution_constraints (cs : List DistributionConstraint) (tol : ℚ) (t : PVal) : List Violation :=
  match cs with
  | [] => []
  | c :: rest =>
    let tail := check_distribution_constraints rest tol t
    match collect_param_values c.params t with
    | .error _ => .checkErr (cs.length) :: tail
    | .ok (vs, ms) =>
      if ms.isEmpty then
        if |((vs.map Prod.snd).sum) - c.target_sum| > tol then .distribution c :: tail else tail
      else tail

/-- Existence check of a relationship constraint's identifiers (the looked-up
values are discarded): missing list, or a propagating `TypeError`. -/
def collect_param_presence : List (List String) → PVal → Except Unit (List (List String))
  | [], _ => .ok []
  | p :: rest, t =>
    match get_nested_param_value t p with
    | .ok _ => collect_param_presence rest t
    | .error .keyErr => (collect_param_presence rest t).map (fun ms => p :: ms)
    | .error .typeErr => .error ()

/-- `_check_relationship_constraints`: any missing identifier skips the
constraint; a failing predicate flags it; any exception (a `TypeError` lookup
or a raising predicate) is caught and flagged. -/
def check_relationship_constraints (cs : List RelationshipConstraint) (t : PVal) : List Violation :=
  match cs with
  | [] => []
  | c :: rest =>
    let tail := check_relationship_constraints rest t
    match collect_param_presence c.params t with
    | .error _ => .checkErr (cs.length) :: tail
    | .ok ms =>
      if ms.isEmpty then
        match c.func t with
        | .ok true => tail
        | .ok false => .relationship (cs.length) :: tail
        | .error _ => .checkErr (cs.length) :: tail
      else tail

/-- `validate_params`: boundary, then distribution, then relationship checks;
`is_valid` iff no violations.  A boundary-check `TypeError` propagates out of
`validate_params` itself. -/
def validate_params (H : ConstraintHandler) (t : PVal) : Except Unit (Bool × List Violation) :=
  (check_boundary_constraints H.boundary_constraints t).map (fun bv =>
    let vs := bv ++ check_distribution_constraints H.distribution_constraints H.constraint_tolerance t
      ++ check_relationship_constraints H.relationship_constraints t
    (vs.isEmpty, vs))

/-- Clamp `max(min_val, min(max_val, value))`. -/
def clampQ (mn mx v : ℚ) : ℚ := max mn (min mx v)

/-- Re-clamp a value to its own boundary if one is registered. -/
def clamp_if_bounded (bounds : List (List String × ℚ × ℚ)) (p : List String) (nv : ℚ) : ℚ :=
  match bounds.lookup p with
  | some (mn, mx) => clampQ mn mx nv
  | none => nv

/-- `_repair_boundary_constraints`: clamp every present out-of-range value;
`KeyError` skips the entry; `TypeError` propagates. -/
def repair_boundary_constraints : List (List String × ℚ × ℚ) → PVal → Except Unit PVal
  | [], t => .ok t
  | (p, mn, mx) :: rest, t =>
    match get_nested_numeric t p with
    | .ok v =>
      if v < mn ∨ v > mx then
        match set_nested_param_value t p (clampQ mn mx v) with
        | .ok t' => repair_boundary_constraints rest t'
        | .error _ => .error ()
      else repair_boundary_constraints rest t
    | .error .keyErr => repair_boundary_constraints rest t
    | .error .typeErr => .error ()

/-- One rescaling write pass of `_repair_distribution_constraints` (the
`current_sum > 0` branch): each collected value is multiplied by the scale
factor, re-clamped to its own boundary if one is registered, and written
back.  A write error aborts the constraint, keeping earlier writes (the
per-constraint `except` in the source). -/
def write_scaled (bounds : List (List String × ℚ × ℚ)) (scale : ℚ) :
    PVal → List (List String × ℚ) → PVal
  | t, [] => t
  | t, (p, v) :: rest =>
    match set_nested_param_value t p (clamp_if_bounded bounds p (v * scale)) with
    | .ok t' => write_scaled bounds scale t' rest
    | .error _ => t

/-- The `current_sum <= 0` branch of `_repair_distribution_constraints`: a
single `avg_value` variable is clamped and written for each identifier in
turn; the source reassigns `avg_value` to the clamped value, so a clamp for
one identifier carries over to the next. -/
def write_uniform (bounds : List (List String × ℚ × ℚ)) :
    PVal → ℚ → List (List String) → PVal
  | t, _, [] => t
  | t, avg, p :: rest =>
    match set_nested_param_value t p (clamp_if_bounded bounds p avg) with
    | .ok t' => write_uniform bounds t' (clamp_if_bounded bounds p avg) rest
    | .error _ => t

/-- Repair of one distribution constraint (collection, then rescaling or
uniform split); any exception is caught per constraint, skipping it. -/
def repair_one_distribution (bounds : List (List String × ℚ × ℚ)) (tol : ℚ)
    (c : DistributionConstraint) (t : PVal) : PVal :=
  match collect_param_values c.params t with
  | .error _ => t
  | .ok (vs, _) =>
    if vs.isEmpty then t
    else
      let current_sum := (vs.map Prod.snd).sum
      if |current_sum - c.target_sum| > tol then
        if current_sum > 0 then
          write_scaled bounds (c.target_sum / current_sum) t vs
        else
          write_uniform bounds t (c.target_sum / vs.length) (vs.map Prod.fst)
      else t

/-- `_repair_distribution_constraints`: repair each registered distribution
constraint in order. -/
def repair_distribution_constraints (H : ConstraintHandler) (t : PVal) : PVal :=
  H.distribution_constraints.foldl
    (fun t c => repair_one_distribution H.boundary_constraints H.constraint_tolerance c t) t

/-- `repair_params`: deep-copy (pure in the model), repair boundary then
distribution constraints, then re-validate (the result is only warned about,
but a `TypeError` raised by the final validation propagates). -/
def repair_params (H : ConstraintHandler) (t : PVal) : Except Unit PVal := do
  let t1 ← repair_boundary_constraints H.boundary_constraints t
  let t2 := repair_distribution_constraints H t1
  let _ ← validate_params H t2
  pure t2

/-- `validate_and_repair_optimization_params`: validate first and return the
input untouched when it is already valid, otherwise repair. -/
def validate_and_repair_optimization_params (H : ConstraintHandler) (t : PVal) :
    Except Unit PVal := do
  let (is_valid, _) ← validate_params H t
  if is_valid then pure t else repair_params H t

/-!
## The Luma constraint set (`LumaConstraintHandler`)
-/

/-- The price-logic relationship predicate: yearly-averaged member prices must
be non-increasing with the commitment length; any failure (a missing or
non-numeric parameter) is swallowed by the bare `except`, returning `True`. -/
def price_logic_constraint (t : PVal) : Except Unit Bool :=
  match get_nested_numeric t ["price_annual_member"],
        get_nested_numeric t ["price_3year_member"],
        get_nested_numeric t ["price_5year_member"] with
  | .ok a, .ok p3, .ok p5 => .ok (decide (a ≥ p3 / 3 ∧ p3 / 3 ≥ p5 / 5))
  | _, _, _ => .ok true

/-- The share and renewal-rate identifiers that `add_luma_business_constraints`
bounds to [0,1] when they are not already boundary-constrained. -/
def luma_default_unit_params : List (List String) :=
  [["type2_luma_share_from_student", "a"],
   ["type2_luma_share_from_student", "b"],
   ["type2_luma_share_from_student", "c"],
   ["renewal_rate_uni"], ["renewal_rate_student"]]

/-- `LumaConstraintHandler(param_ranges)`: the given ranges as boundary
constraints, the three Luma distribution constraints, the price-logic
relationship constraint, and [0,1] bounds for shares and renewal rates not
already bounded. -/
def luma_constraint_handler (param_ranges : List (List String × ℚ × ℚ)) : ConstraintHandler :=
  let bounds := luma_default_unit_params.foldl
    (fun bs p => if (bs.lookup p).isSome then bs else bs ++ [(p, 0, 1)]) param_ranges
  { boundary_constraints := bounds
    distribution_constraints :=
      [⟨[["mode_distribution", "Type1"], ["mode_distribution", "Type2a"],
         ["mode_distribution", "Type2b"], ["mode_distribution", "Type2c"],
         ["mode_distribution", "Type3"]], 1⟩,
       ⟨[["share_paid_user_per_use_only"], ["share_paid_user_membership"]], 1⟩,
       ⟨[["member_purchase_shares", "annual"], ["member_purchase_shares", "3year"],
         ["member_purchase_shares", "5year"]], 1⟩]
    relationship_constraints :=
      [⟨[["price_annual_member"], ["price_3year_member"], ["price_5year_member"]],
        price_logic_constraint⟩] }

/-!
## Optimization monitor (`optimization_monitor.py`)

Scores are Python floats that can be the `-float('inf')` sentinel; `Score`
models exactly that subset.
-/

/-- A float score: either the `-inf` sentinel or a rational. -/
inductive Score where
  | negInf
  | val (q : ℚ)
deriving DecidableEq

/-- Strict `<` on scores (`-inf < -inf` is false, as for IEEE floats). -/
def Score.ltb : Score → Score → Bool
  | _, .negInf => false
  | .negInf, .val _ => true
  | .val a, .val b => decide (a < b)

/-- Python `max(a, b)`: returns the first argument unless the second is
strictly greater. -/
def Score.maxS (a b : Score) : Score := if Score.ltb a b then b else a

/-- Strictly-greater-than a rational threshold (`-inf > q` is false). -/
def Score.gtq : Score → ℚ → Bool
  | .negInf, _ => false
  | .val a, q => decide (a > q)

/-- The monitor state relevant to convergence and early stopping.  The wall
clock and the per-iteration history other than the improvements list are
dropped: none of the retained fields depends on them. -/
structure MonitorState where
  patience : ℕ
  min_improvement : ℚ
  best_score_so_far : Score
  no_improvement_count : ℕ
  convergence_detected : Bool
  early_stop_suggested : Bool
  improvements : List Score
deriving DecidableEq

/-- A fresh `OptimizationMonitor(patience, min_improvement=1e-4)`. -/
def init_monitor (patience : ℕ) : MonitorState :=
  { patience := patience
    min_improvement := 1 / 10000
    best_score_so_far := .negInf
    no_improvement_count := 0
    convergence_detected := false
    early_stop_suggested := false
    improvements := [] }

/-- The recorded improvement: `0` while `best_score_so_far` is the `-inf`
sentinel, else `best_score - best_score_so_far`. -/
def monitor_improvement (m : MonitorState) (best : Score) : Score :=
  match m.best_score_so_far, best with
  | .negInf, _ => .val 0
  | .val _, .negInf => .negInf
  | .val b, .val a => .val (a - b)

/-- Mean of the last five improvements compared with the threshold (`-inf`
anywhere makes the mean `-inf`, hence below any threshold). -/
def mean_lt (l : List Score) (q : ℚ) : Bool :=
  if l.any (fun s => s = .negInf) then true
  else decide ((l.filterMap (fun s => match s with | .val a => some a | .negInf => none)).sum / l.length < q)

/-- `record_iteration`: append the improvement, reset the no-improvement
counter and update `best_score_so_far` only when the improvement strictly
exceeds `min_improvement`, then run `_check_convergence` (mean of the last 5
improvements) and `_check_early_stop` (counter reaching `patience`). -/
def record_iteration (m : MonitorState) (_current best : Score) : MonitorState :=
  let improvement := monitor_improvement m best
  let improvements := m.improvements ++ [improvement]
  let m :=
    if improvement.gtq m.min_improvement then
      { m with no_improvement_count := 0, best_score_so_far := best, improvements := improvements }
    else
      { m with no_improvement_count := m.no_improvement_count + 1, improvements := improvements }
  let m :=
    if 5 ≤ m.improvements.length ∧
        mean_lt (m.improvements.drop (m.improvements.length - 5)) m.min_improvement then
      { m with convergence_detected := true }
    else m
  if m.patience ≤ m.no_improvement_count then { m with early_stop_suggested := true } else m

/-- `should_stop_early`: a pure read of the sticky early-stop flag. -/
def should_stop_early (m : MonitorState) : Bool := m.early_stop_suggested

/-!
## Grid search (`grid_search_optimizer` in `optimization.py`)
-/

/-- `np.linspace(a, b, n)` over exact rationals. -/
def np_linspace (a b : ℚ) (n : ℕ) : List ℚ :=
  match n with
  | 0 => []
  | 1 => [a]
  | _ => (List.range n).map (fun i => a + (b - a) * i / (n - 1))

/-- Per-dimension sample grids: a degenerate range (`max_val <= min_val`)
contributes the single point `min_val`. -/
def grid_values (ranges : List (String × ℚ × ℚ)) (points_per_dim : ℕ) : List (List ℚ) :=
  ranges.map (fun r => if r.2.2 ≤ r.2.1 then [r.2.1] else np_linspace r.2.1 r.2.2 points_per_dim)

/-- `itertools.product`: all combinations, rightmost dimension fastest. -/
def cartesian_product : List (List ℚ) → List (List ℚ)
  | [] => [[]]
  | g :: gs => g.flatMap (fun v => (cartesian_product gs).map (v :: ·))

/-- `dict(zip(param_names, values))`: grid-search candidate dictionaries are
flat, with the (possibly dotted) parameter name as a single key. -/
def mk_flat_dict : List String → List ℚ → PDict
  | n :: ns, v :: vs => .cons n (.leaf v) (mk_flat_dict ns vs)
  | _, _ => .nil

/-- State threaded through the grid-search loop. -/
structure GridState where
  best_score : Score
  best_params : PVal
  monitor : MonitorState

/-- The grid-search evaluation loop: repair each candidate (a repair exception
is caught, keeping the unrepaired candidate), evaluate, record the iteration
with `max(best_score, current_score)`, keep a strictly better candidate, and
break as soon as the monitor suggests an early stop. -/
def grid_loop (H : ConstraintHandler) (f : PVal → Score) (names : List String) :
    List (List ℚ) → GridState → GridState
  | [], st => st
  | combo :: rest, st =>
    let p0 : PVal := .node (mk_flat_dict names combo)
    let p := match validate_and_repair_optimization_params H p0 with
      | .ok q => q
      | .error _ => p0
    let score := f p
    let m := record_iteration st.monitor score (Score.maxS st.best_score score)
    let st' : GridState :=
      if Score.ltb st.best_score score then ⟨score, p, m⟩ else ⟨st.best_score, st.best_params, m⟩
    if should_stop_early m then st' else grid_loop H f names rest st'

/-- `grid_search_optimizer` (the returned results table is not modelled; the
returned best parameters and best score are).  The constraint handler and the
monitor are the defaults the source constructs when none are supplied:
`LumaConstraintHandler(params_to_optimize_ranges)` and
`OptimizationMonitor(patience=max(5, total_combinations // 20))`. -/
def grid_search_optimizer (f : PVal → Score) (ranges : List (String × ℚ × ℚ))
    (points_per_dim : ℕ) : PVal × Score :=
  if ranges.isEmpty then (.node .nil, .negInf)
  else
    let names := ranges.map Prod.fst
    let combos := cartesian_product (grid_values ranges points_per_dim)
    let H := luma_constraint_handler (ranges.map (fun r => (split_dotted r.1, r.2.1, r.2.2)))
    let st := grid_loop H f names combos
      ⟨.negInf, .node .nil, init_monitor (max 5 (combos.length / 20))⟩
    (st.best_params, st.best_score)

/-!
## Realism penalty (`realistic_constraints.py`)

`RealisticConstraintHandler` reads parameters from a flat dictionary by full
(possibly dotted) key, with no nested traversal, so its parameter type is a
flat association list from strings to rationals.
-/

/-- A flat parameter dictionary (insertion-ordered, unique keys). -/
abbrev FlatParams : Type := List (String × ℚ)

/-- First-match lookup (`param_name in params` / `params[param_name]`). -/
def flookup (x : FlatParams) (k : String) : Option ℚ :=
  match x with
  | [] => none
  | (k', v) :: rest => if k' = k then some v else flookup rest k

/-- `reasonable_ranges`: the realistic range table, in source order. -/
def reasonable_ranges : List (String × ℚ × ℚ) :=
  [("price_annual_member", 15, 60),
   ("price_3year_member", 40, 150),
   ("price_5year_member", 60, 200),
   ("price_per_feature_use", 2, 20),
   ("type2_luma_share_from_student.a", 1/5, 7/10),
   ("type2_luma_share_from_student.b", 3/10, 4/5),
   ("type2_luma_share_from_student.c", 2/5, 9/10),
   ("new_clients_per_half_year", 2, 15),
   ("renewal_rate_uni", 3/5, 19/20)]

/-- `share_acceptance_thresholds`. -/
def share_acceptance_thresholds : List (String × ℚ) :=
  [("type2_luma_share_from_student.a", 3/5),
   ("type2_luma_share_from_student.b", 7/10),
   ("type2_luma_share_from_student.c", 4/5)]

/-- The range contribution of one `reasonable_ranges` entry: out-of-range
distance normalized by the violated bound (`min_val` below, `max_val` above),
scaled by 100; absent identifiers contribute zero. -/
def range_penalty_term (x : FlatParams) (e : String × ℚ × ℚ) : ℚ :=
  match flookup x e.1 with
  | none => 0
  | some v =>
    if v < e.2.1 then (e.2.1 - v) / e.2.1 * 100
    else if v > e.2.2 then (v - e.2.2) / e.2.2 * 100
    else 0

/-- The share contribution of one `share_acceptance_thresholds` entry:
excess over the threshold scaled by 200. -/
def share_penalty_term (x : FlatParams) (e : String × ℚ) : ℚ :=
  match flookup x e.1 with
  | none => 0
  | some v => if v > e.2 then (v - e.2) * 200 else 0

/-- The volume contribution: excess of `new_clients_per_half_year` over 15
scaled by 50. -/
def volume_penalty_term (x : FlatParams) : ℚ :=
  match flookup x "new_clients_per_half_year" with
  | none => 0
  | some v => if v > 15 then (v - 15) * 50 else 0

/-- `calculate_penalty_score`: the accumulator threaded through the three
loops of the source (ranges, thresholds, then the volume check). -/
def calculate_penalty_score (x : FlatParams) : ℚ :=
  let p1 := reasonable_ranges.foldl (fun acc e => acc + range_penalty_term x e) 0
  let p2 := share_acceptance_thresholds.foldl (fun acc e => acc + share_penalty_term x e) p1
  p2 + volume_penalty_term x

/-!
## Ensemble optimizer (`ensemble_optimizer.py`)

Strategy results are modelled by the fields of `OptimizationResult` that the
fusion logic reads (`best_params`, `best_score`, the `converged` bit of
`convergence_info`, and the provenance-carrying `algorithm` string); scores
are exact rationals (the fusion code never feeds the `-inf` sentinel path
relevant here).  The objective evaluator passed to fusion may raise, which the
source catches by falling back to the best single result.
-/

/-- The slice of `OptimizationResult` read by `_merge_results`. -/
structure StrategyResult where
  algorithm : String
  best_params : FlatParams
  best_score : ℚ
  converged : Bool
deriving DecidableEq

/-- The fusion weight of one strategy result: its best score, boosted by 1.2
when its monitor reported convergence. -/
def result_weight (r : StrategyResult) : ℚ :=
  if r.converged then r.best_score * (12/10) else r.best_score

/-- `_calculate_ensemble_params`: score-weighted average of the parameter
values, per key, over the results that contain the key with a positive
normalized-weight sum.  Normalizing by a zero total weight raises
`ZeroDivisionError` (modelled as `.error ()`), which the caller does not
catch. -/
def calculate_ensemble_params (results : List StrategyResult) : Except Unit FlatParams :=
  if results.isEmpty then .ok []
  else
    let total := (results.map result_weight).sum
    if total = 0 then .error ()
    else
      let keys := (results.flatMap (fun r => r.best_params.map Prod.fst)).dedup
      .ok (keys.filterMap (fun k =>
        let contrib := results.filterMap
          (fun r => (flookup r.best_params k).map (fun v => (v, result_weight r / total)))
        let wsum := (contrib.map Prod.snd).sum
        if 0 < wsum then some (k, (contrib.map (fun c => c.1 * c.2)).sum / wsum) else none))

/-- Python `max(results, key=best_score)`: the first maximal element. -/
def best_single (r0 : StrategyResult) (rest : List StrategyResult) : StrategyResult :=
  rest.foldl (fun acc r => if acc.best_score < r.best_score then r else acc) r0

/-- `_merge_results`: raises on an empty result set; otherwise evaluates the
weighted-average assignment and returns whichever of the best single result
and the averaged assignment scores higher, tagging the provenance in the
`algorithm` field. -/
def merge_results (results : List StrategyResult)
    (evalFn : FlatParams → Except Unit ℚ) : Except Unit StrategyResult :=
  match results with
  | [] => .error ()
  | r0 :: rest =>
    (calculate_ensemble_params results).map (fun ensemble_params =>
      let best := best_single r0 rest
      match evalFn ensemble_params with
      | .ok ensemble_score =>
        if best.best_score < ensemble_score then
          ⟨"ensemble_weighted_average", ensemble_params, ensemble_score, false⟩
        else
          ⟨"best_single:" ++ best.algorithm, best.best_params, best.best_score, best.converged⟩
      | .error _ =>
        ⟨"best_single:" ++ best.algorithm, best.best_params, best.best_score, best.converged⟩)

/-- `_run_algorithms_sequential` / `_run_algorithms_parallel`: each strategy
execution either returns a result or raises; a raising strategy is caught,
logged and excluded, so `individual_results` collects exactly the successes
in completion order. -/
def collect_results (outcomes : List (String × Except Unit StrategyResult)) :
    List StrategyResult :=
  outcomes.foldl (fun acc o => match o.2 with | .ok r => acc ++ [r] | .error _ => acc) []

/-- The ensemble pipeline from strategy outcomes to the fused result. -/
def ensemble_optimize (outcomes : List (String × Except Unit StrategyResult))
    (evalFn : FlatParams → Except Unit ℚ) : Except Unit StrategyResult :=
  merge_results (collect_results outcomes) evalFn

/-!
## Object-heap model for the mutation discipline of `repair_params`

`repair_params` starts from `copy.deepcopy(params)` and then mutates the copy
in place through `_set_nested_param_value`.  To state that the argument is
never mutated we model the Python object graph explicitly: dictionaries are
heap objects at addresses, values stored in a dictionary are numbers or
references, and `copy.deepcopy` allocates fresh addresses.
-/

/-- A value stored in a heap dictionary: a number or a reference to another
dictionary object. -/
inductive HVal where
  | num (q : ℚ)
  | ref (a : ℕ)
deriving DecidableEq

/-- A heap dictionary object: insertion-ordered entries. -/
abbrev HDict : Type := List (String × HVal)

/-- Key lookup in a heap dictionary. -/
def hfind : HDict → String → Option HVal
  | [], _ => none
  | (k', v) :: rest, k => if k' = k then some v else hfind rest k

/-- Item assignment in a heap dictionary. -/
def hset : HDict → String → HVal → HDict
  | [], k, v => [(k, v)]
  | (k', v') :: rest, k, v => if k' = k then (k, v) :: rest else (k', v') :: hset rest k v

/-- The heap: a partial map from addresses to dictionary objects, plus the
next fresh address (allocation is monotone). -/
structure HState where
  heap : ℕ → Option HDict
  next : ℕ

/-- Overwrite the object at an existing address. -/
def HState.write (σ : HState) (a : ℕ) (d : HDict) : HState :=
  ⟨fun b => if b = a then some d else σ.heap b, σ.next⟩

/-- Allocate a new object at the next fresh address. -/
def HState.alloc (σ : HState) (d : HDict) : HState × ℕ :=
  (⟨fun b => if b = σ.next then some d else σ.heap b, σ.next + 1⟩, σ.next)

mutual
/-- `copy.deepcopy` of a tree-shaped value: fresh addresses for every
dictionary, numbers copied by value. -/
def deepcopy_val : HState → PVal → HState × HVal
  | σ, .leaf q => (σ, .num q)
  | σ, .node d =>
    let (σ1, es) := deepcopy_dict σ d
    let (σ2, a) := σ1.alloc es
    (σ2, .ref a)
/-- `copy.deepcopy` of the entries of a dictionary. -/
def deepcopy_dict : HState → PDict → HState × HDict
  | σ, .nil => (σ, [])
  | σ, .cons k v rest =>
    let (σ1, hv) := deepcopy_val σ v
    let (σ2, hs) := deepcopy_dict σ1 rest
    (σ2, (k, hv) :: hs)
end

mutual
/-- Read the tree-shaped value reachable from a heap value (fuel-bounded so
that a cyclic heap simply fails to read). -/
def read_val : ℕ → (ℕ → Option HDict) → HVal → Option PVal
  | _, _, .num q => some (.leaf q)
  | 0, _, .ref _ => none
  | n + 1, h, .ref a =>
    match h a with
    | none => none
    | some d =>
      match read_dict n h d with
      | none => none
      | some pd => some (.node pd)
termination_by n _ _ => (n, 0)
/-- Read the entries of a heap dictionary as a `PDict`. -/
def read_dict : ℕ → (ℕ → Option HDict) → HDict → Option PDict
  | _, _, [] => some .nil
  | n, h, (k, v) :: rest =>
    match read_val n h v, read_dict n h rest with
    | some pv, some pd => some (.cons k pv pd)
    | _, _ => none
termination_by n _ d => (n, 1 + d.length)
end

/-- `_set_nested_param_value` acting on the heap: traverse from the root
dictionary object, following references, creating a fresh empty dictionary
for a missing intermediate key; traversal into a number raises `TypeError`
(leaving the mutations performed so far in place); the final key is assigned
the numeric value. -/
def heap_set : HState → ℕ → List String → ℚ → HState
  | σ, _, [], _ => σ
  | σ, a, [k], v =>
    match σ.heap a with
    | none => σ
    | some d => σ.write a (hset d k (.num v))
  | σ, a, k :: k2 :: ks, v =>
    match σ.heap a with
    | none => σ
    | some d =>
      match hfind d k with
      | some (.ref b) => heap_set σ b (k2 :: ks) v
      | some (.num _) => σ
      | none =>
        let (σ1, b) := σ.alloc []
        heap_set (σ1.write a (hset d k (.ref b))) b (k2 :: ks) v

/-- Perform a sequence of nested-set calls on the object rooted at `a`. -/
def apply_writes (σ : HState) (a : ℕ) (ws : List (List String × ℚ)) : HState :=
  ws.foldl (fun σ w => heap_set σ a w.1 w.2) σ

/-!
The write trace of `repair_params`: every mutation the repair performs on the
deep copy goes through `_set_nested_param_value`, so the heap-level repair is
the deep copy followed by the repair's sequence of nested-set calls.  The
trace-collecting definitions below mirror the repair definitions above,
recording each attempted set call (a set call that raises still appears: its
partial effects are reproduced by `heap_set`).
-/

/-- `_repair_boundary_constraints` with its write trace. -/
def repair_boundary_trace (bounds : List (List String × ℚ × ℚ)) :
    PVal → List (List String × ℚ) → (Except Unit PVal) × List (List String × ℚ)
  | t, ws =>
    match bounds with
    | [] => (.ok t, ws)
    | (p, mn, mx) :: rest =>
      match get_nested_numeric t p with
      | .ok v =>
        if v < mn ∨ v > mx then
          match set_nested_param_value t p (clampQ mn mx v) with
          | .ok t' => repair_boundary_trace rest t' (ws ++ [(p, clampQ mn mx v)])
          | .error _ => (.error (), ws ++ [(p, clampQ mn mx v)])
        else repair_boundary_trace rest t ws
      | .error .keyErr => repair_boundary_trace rest t ws
      | .error .typeErr => (.error (), ws)

/-- `write_scaled` with its write trace. -/
def write_scaled_trace (bounds : List (List String × ℚ × ℚ)) (scale : ℚ) :
    PVal → List (List String × ℚ) → List (List String × ℚ) → PVal × List (List String × ℚ)
  | t, [], ws => (t, ws)
  | t, (p, v) :: rest, ws =>
    match set_nested_param_value t p (clamp_if_bounded bounds p (v * scale)) with
    | .ok t' =>
      write_scaled_trace bounds scale t' rest (ws ++ [(p, clamp_if_bounded bounds p (v * scale))])
    | .error _ => (t, ws ++ [(p, clamp_if_bounded bounds p (v * scale))])

/-- `write_uniform` with its write trace. -/
def write_uniform_trace (bounds : List (List String × ℚ × ℚ)) :
    PVal → ℚ → List (List String) → List (List String × ℚ) → PVal × List (List String × ℚ)
  | t, _, [], ws => (t, ws)
  | t, avg, p :: rest, ws =>
    match set_nested_param_value t p (clamp_if_bounded bounds p avg) with
    | .ok t' =>
      write_uniform_trace bounds t' (clamp_if_bounded bounds p avg) rest
        (ws ++ [(p, clamp_if_bounded bounds p avg)])
    | .error _ => (t, ws ++ [(p, clamp_if_bounded bounds p avg)])

/-- `repair_one_distribution` with its write trace. -/
def repair_one_distribution_trace (bounds : List (List String × ℚ × ℚ)) (tol : ℚ)
    (c : DistributionConstraint) (t : PVal) (ws : List (List String × ℚ)) :
    PVal × List (List String × ℚ) :=
  match collect_param_values c.params t with
  | .error _ => (t, ws)
  | .ok (vs, _) =>
    if vs.isEmpty then (t, ws)
    else
      let current_sum := (vs.map Prod.snd).sum
      if |current_sum - c.target_sum| > tol then
        if current_sum > 0 then
          write_scaled_trace bounds (c.target_sum / current_sum) t vs ws
        else
          write_uniform_trace bounds t (c.target_sum / vs.length) (vs.map Prod.fst) ws
      else (t, ws)

/-- `repair_params` with its write trace (the final re-validation performs no
writes). -/
def repair_params_trace (H : ConstraintHandler) (t : PVal) :
    (Except Unit PVal) × List (List String × ℚ) :=
  match repair_boundary_trace H.boundary_constraints t [] with
  | (.error e, ws) => (.error e, ws)
  | (.ok t1, ws) =>
    let (t2, ws2) := H.distribution_constraints.foldl
      (fun s c => repair_one_distribution_trace H.boundary_constraints H.constraint_tolerance c s.1 s.2)
      (t1, ws)
    match validate_params H t2 with
    | .error e => (.error e, ws2)
    | .ok _ => (.ok t2, ws2)

/-- `repair_params` acting on the object heap: read the argument's value tree,
deep-copy it, and perform the repair's set calls on the copy.  The argument
object at `a` is itself never written. -/
def heap_repair_params (H : ConstraintHandler) (fuel : ℕ) (σ : HState) (a : ℕ) : HState :=
  match read_val fuel σ.heap (.ref a) with
  | none => σ
  | some t =>
    let ws := (repair_params_trace H t).2
    let (σ1, r) := deepcopy_val σ t
    match r with
    | .ref b => apply_writes σ1 b ws
    | .num _ => σ1

/-- Heap well-formedness: addresses at or above `next` are unallocated, and
every reference stored in an allocated dictionary points below `next`. -/
def HState.WF (σ : HState) : Prop :=
  (∀ b, σ.next ≤ b → σ.heap b = none) ∧
  (∀ b d, σ.heap b = some d → ∀ kv ∈ d, ∀ c, kv.2 = .ref c → c < σ.next)

/-- The framing invariant of the repair-on-copy phase, relative to the
allocation frontier `N` at deep-copy time and the pre-call heap `h₀`:
addresses below `N` still hold exactly the objects of `h₀`, every dictionary
at or above `N` keeps its references at or above `N`, and the allocation
frontier never drops below `N`. -/
def framed (N : ℕ) (h₀ : ℕ → Option HDict) (σ : HState) : Prop :=
  N ≤ σ.next ∧
  (∀ b, b < N → σ.heap b = h₀ b) ∧
  (∀ b d, N ≤ b → σ.heap b = some d → ∀ kv ∈ d, ∀ c, kv.2 = .ref c → N ≤ c)

/-!
## Specification-side definitions

The definitions in this block follow the wording of the specification (not
the code); each claim theorem relates them to the code-level definitions
above.
-/

/-- The penalty formula as the claim words it for the range component:
out-of-range distance normalized by the *range width*, scaled by 100 (the
share and volume components as in the claim). -/
def penalty_spec_width (x : FlatParams) : ℚ :=
  (reasonable_ranges.map (fun e =>
    match flookup x e.1 with
    | none => 0
    | some v =>
      if v < e.2.1 then (e.2.1 - v) / (e.2.2 - e.2.1) * 100
      else if v > e.2.2 then (v - e.2.2) / (e.2.2 - e.2.1) * 100
      else 0)).sum
  + (share_acceptance_thresholds.map (share_penalty_term x)).sum
  + volume_penalty_term x

/-- The penalty as a sum of the three independent components (the amended
claim: range distances are normalized by the violated bound, not the range
width). -/
def penalty_component_sum (x : FlatParams) : ℚ :=
  (reasonable_ranges.map (range_penalty_term x)).sum
  + (share_acceptance_thresholds.map (share_penalty_term x)).sum
  + volume_penalty_term x

/-- Every present identifier with a realistic range is inside it, every
present share identifier is at or below its threshold, and the volume
identifier is at or below its cap. -/
def within_realistic (x : FlatParams) : Bool :=
  reasonable_ranges.all (fun e =>
    match flookup x e.1 with
    | none => true
    | some v => decide (e.2.1 ≤ v ∧ v ≤ e.2.2)) &&
  share_acceptance_thresholds.all (fun e =>
    match flookup x e.1 with
    | none => true
    | some v => decide (v ≤ e.2)) &&
  (match flookup x "new_clients_per_half_year" with
   | none => true
   | some v => decide (v ≤ 15))

/-- The assignment that puts every identifier with a realistic range at the
midpoint of that range. -/
def midpoint_assignment : FlatParams :=
  reasonable_ranges.map (fun e => (e.1, (e.2.1 + e.2.2) / 2))

/-- Specification-side validation: a constraint any of whose identifier
lookups fails is skipped; a fully-present constraint is checked (a raising
relationship predicate is still flagged, as in the source). -/
def check_boundary_skip_missing (bounds : List (List String × ℚ × ℚ)) (t : PVal) : List Violation :=
  match bounds with
  | [] => []
  | (p, mn, mx) :: rest =>
    let tail := check_boundary_skip_missing rest t
    match get_nested_numeric t p with
    | .ok v => if v < mn ∨ v > mx then .boundary p :: tail else tail
    | .error _ => tail

/-- Specification-side distribution check: skipped unless every identifier is
present. -/
def check_distribution_skip_missing (cs : List DistributionConstraint) (tol : ℚ) (t : PVal) :
    List Violation :=
  match cs with
  | [] => []
  | c :: rest =>
    let tail := check_distribution_skip_missing rest tol t
    match collect_param_values c.params t with
    | .error _ => tail
    | .ok (vs, ms) =>
      if ms.isEmpty then
        if |((vs.map Prod.snd).sum) - c.target_sum| > tol then .distribution c :: tail else tail
      else tail

/-- Specification-side relationship check: skipped unless every identifier is
present. -/
def check_relationship_skip_missing (cs : List RelationshipConstraint) (t : PVal) : List Violation :=
  match cs with
  | [] => []
  | c :: rest =>
    let tail := check_relationship_skip_missing rest t
    match collect_param_presence c.params t with
    | .error _ => tail
    | .ok ms =>
      if ms.isEmpty then
        match c.func t with
        | .ok true => tail
        | .ok false => .relationship (cs.length) :: tail
        | .error _ => .checkErr (cs.length) :: tail
      else tail

/-- Specification-side `validate`: every constraint with a missing identifier
is skipped, all fully-present constraints are checked. -/
def validate_skip_missing (H : ConstraintHandler) (t : PVal) : Bool × List Violation :=
  let vs := check_boundary_skip_missing H.boundary_constraints t
    ++ check_distribution_skip_missing H.distribution_constraints H.constraint_tolerance t
    ++ check_relationship_skip_missing H.relationship_constraints t
  (vs.isEmpty, vs)

/-- No constraint lookup of the handler fails with a `TypeError` on `t` (all
failures, if any, are missing keys). -/
def lookups_key_fail_only (H : ConstraintHandler) (t : PVal) : Prop :=
  (∀ e ∈ H.boundary_constraints, get_nested_numeric t e.1 ≠ .error .typeErr) ∧
  (∀ c ∈ H.distribution_constraints, ∀ p ∈ c.params, get_nested_numeric t p ≠ .error .typeErr) ∧
  (∀ c ∈ H.relationship_constraints, ∀ p ∈ c.params, get_nested_param_value t p ≠ .error .typeErr)

/-- The numeric value at a path, defaulting to 0 when the lookup fails (a
proof-side view of `get_nested_numeric`). -/
def get_q (t : PVal) (p : List String) : ℚ :=
  match get_nested_numeric t p with
  | .ok v => v
  | .error _ => 0

/-- Every boundary-constrained identifier that resolves to a number in `t`
lies within its registered range (the boundary part of the claim). -/
def bounds_ok (bs : List (List String × ℚ × ℚ)) (t : PVal) : Prop :=
  ∀ e ∈ bs, ∀ v, get_nested_numeric t e.1 = .ok v → e.2.1 ≤ v ∧ v ≤ e.2.2

/-- The `ParameterSpace` invariant of the specification: `min ≤ max` for every
registered boundary. -/
def bounds_wf (bs : List (List String × ℚ × ℚ)) : Prop :=
  ∀ e ∈ bs, e.2.1 ≤ e.2.2

/-- All listed identifiers resolve to numbers (the "all of whose identifiers
are present" hypothesis of the claim). -/
def all_present (ps : List (List String)) (t : PVal) : Prop :=
  ∀ p ∈ ps, ∃ v, get_nested_numeric t p = .ok v

/-- A sum-to-target constraint is fully present and its sum is within the
tolerance of the target (the sum part of the claim). -/
def dist_sum_ok (c : DistributionConstraint) (tol : ℚ) (t : PVal) : Prop :=
  ∃ vs, collect_param_values c.params t = .ok (vs, []) ∧
    |(vs.map Prod.snd).sum - c.target_sum| ≤ tol

/-- A distribution constraint that repair leaves alone: collecting its values
raises (the per-constraint `except` swallows it), or nothing was collected, or
the collected sum is already within tolerance. -/
def dist_no_repair (c : DistributionConstraint) (tol : ℚ) (t : PVal) : Prop :=
  ∀ vs ms, collect_param_values c.params t = .ok (vs, ms) →
    vs = [] ∨ |(vs.map Prod.snd).sum - c.target_sum| ≤ tol

/-- The fixed-point conditions of `repair_params`: every boundary lookup is
`TypeError`-free with all present values in range, and no distribution
constraint triggers a rescale. -/
def repair_fixed_conditions (H : ConstraintHandler) (t : PVal) : Prop :=
  (∀ e ∈ H.boundary_constraints, get_nested_numeric t e.1 ≠ .error .typeErr ∧
    ∀ v, get_nested_numeric t e.1 = .ok v → e.2.1 ≤ v ∧ v ≤ e.2.2) ∧
  (∀ c ∈ H.distribution_constraints, dist_no_repair c H.constraint_tolerance t)

/-!
## Concrete instances used by the claim theorems
-/

/-- The objective of the grid-search example scenario: `f(x) = -(x-7)^2`. -/
def example_objective (t : PVal) : Score :=
  match get_nested_numeric t ["x"] with
  | .ok v => .val (-((v - 7) ^ 2))
  | .error _ => .negInf

/-- A monitor fed a sequence of (current, best) score pairs equal to the given
scores, starting from the default `patience=10` monitor. -/
def monitor_run (scores : List ℚ) : MonitorState :=
  scores.foldl (fun m s => record_iteration m (.val s) (.val s)) (init_monitor 10)

/-- The two-identifier handler used for the repair counterexamples: bounds
`a, b ∈ [0, 0.3]` and the sum-to-target constraint `a + b = 1`. -/
def cex_handler : ConstraintHandler :=
  { boundary_constraints := [(["a"], 0, 3/10), (["b"], 0, 3/10)]
    distribution_constraints := [⟨[["a"], ["b"]], 1⟩]
    relationship_constraints := [] }

/-- The assignment `a = 0.3, b = 0.1` (boundary-valid, sum 0.4). -/
def cex_params : PVal := .node (.cons "a" (.leaf (3/10)) (.cons "b" (.leaf (1/10)) .nil))

/-- The handler used for the C1/C2 witnesses: bound `a ∈ [0, 1]` and the
sum-to-target constraint `b + c = 1` over unbounded identifiers. -/
def wit_handler : ConstraintHandler :=
  { boundary_constraints := [(["a"], 0, 1)]
    distribution_constraints := [⟨[["b"], ["c"]], 1⟩]
    relationship_constraints := [] }

/-- The assignment `a = 2, b = 1/2, c = 1/4` for the C1 witness. -/
def wit_params : PVal :=
  .node (.cons "a" (.leaf 2) (.cons "b" (.leaf (1/2)) (.cons "c" (.leaf (1/4)) .nil)))

/-- A handler with a single sum-to-target constraint over `a.b` and `c`, used
for the C3 counterexample. -/
def cex3_handler : ConstraintHandler :=
  { boundary_constraints := []
    distribution_constraints := [⟨[["a", "b"], ["c"]], 1⟩]
    relationship_constraints := [] }

/-- `{a: 2.0, c: 1.0}`: the lookup of `a.b` fails (subscripting the float
`2.0` raises `TypeError`), so the claim says the constraint is skipped. -/
def cex3_params : PVal := .node (.cons "a" (.leaf 2) (.cons "c" (.leaf 1) .nil))

/-- A single successful strategy result with best score `0`, making the fusion
weights sum to zero. -/
def cex8_result : StrategyResult := ⟨"grid_search", [("x", 1)], 0, false⟩

/-- Strategy results used by the C8/C9 witnesses. -/
def wit8_results : List StrategyResult :=
  [⟨"grid_search", [("x", 1)], 1, false⟩, ⟨"genetic_algorithm", [("y", 3)], 3, false⟩]

/-- A concrete heap for the C10 witness: one dictionary `{a: 1}` at address 0. -/
def wit10_state : HState :=
  ⟨fun b => if b = 0 then some [("a", .num 1)] else none, 1⟩

/-!
## Theorems
-/

/-- While `best_score_so_far` is still the `-inf` sentinel, the recorded
improvement is forced to 0, so (for a non-negative threshold) one record
keeps the sentinel, increments the no-improvement counter, and sets the
early-stop flag as soon as the counter reaches `patience`. -/
theorem record_iteration_sentinel_step (m : MonitorState) (cur best : Score)
    (hs : m.best_score_so_far = .negInf) (hmi : 0 ≤ m.min_improvement) :
    (record_iteration m cur best).best_score_so_far = .negInf ∧
    (record_iteration m cur best).no_improvement_count = m.no_improvement_count + 1 ∧
    (record_iteration m cur best).patience = m.patience ∧
    (record_iteration m cur best).min_improvement = m.min_improvement ∧
    ((record_iteration m cur best).early_stop_suggested = true ↔
      (m.early_stop_suggested = true ∨ m.patience ≤ m.no_improvement_count + 1)) := by
  have hg : Score.gtq (.val 0) m.min_improvement = false := by
    simp [Score.gtq]
    linarith
  simp only [record_iteration, monitor_improvement, hs, hg, Bool.false_eq_true, if_false]
  split
  all_goals split
  all_goals simp_all

/-- Folding any score sequence through the sentinel-stuck monitor: the counter
grows by the sequence length and the early-stop flag is set exactly when the
counter has ever reached `patience`. -/
theorem monitor_sentinel_fold (scores : List ℚ) (m : MonitorState)
    (hs : m.best_score_so_far = .negInf) (hmi : 0 ≤ m.min_improvement) :
    (scores.foldl (fun m s => record_iteration m (.val s) (.val s)) m).best_score_so_far
        = .negInf ∧
    (scores.foldl (fun m s => record_iteration m (.val s) (.val s)) m).no_improvement_count
        = m.no_improvement_count + scores.length ∧
    ((scores.foldl (fun m s => record_iteration m (.val s) (.val s)) m).early_stop_suggested = true ↔
      (m.early_stop_suggested = true ∨
        (scores ≠ [] ∧ m.patience ≤ m.no_improvement_count + scores.length))) := by
  induction scores generalizing m with
  | nil => simp [hs]
  | cons s rest ih =>
    simp only [List.foldl_cons, List.length_cons]
    obtain ⟨h1, h2, h3, h4, h5⟩ := record_iteration_sentinel_step m (.val s) (.val s) hs hmi
    obtain ⟨g1, g2, g3⟩ := ih (record_iteration m (.val s) (.val s)) h1 (by rw [h4]; exact hmi)
    refine ⟨g1, ?_, ?_⟩
    · rw [g2, h2]
      omega
    · rw [g3, h5, h3, h2]
      constructor
      · rintro ((h | h) | ⟨-, h⟩)
        · exact Or.inl h
        · exact Or.inr ⟨by simp, by omega⟩
        · exact Or.inr ⟨by simp, by omega⟩
      · rintro (h | ⟨-, h⟩)
        · exact Or.inl (Or.inl h)
        · rcases Nat.eq_zero_or_pos rest.length with hr | hr
          · exact Or.inl (Or.inr (by omega))
          · refine Or.inr ⟨?_, by omega⟩
            intro hc
            rw [hc] at hr
            simp at hr

/-- Claim C5 (code bug): feeding the default monitor ten records whose best
scores 1,2,…,10 are strictly increasing with improvements far above
`min_improvement`, `should_stop_early()` nevertheless returns true: the
source computes `improvement = 0` whenever `best_score_so_far` is still the
initial `-inf` sentinel, and only updates `best_score_so_far` inside the
`improvement > min_improvement` branch, so the sentinel is never replaced,
every record increments the no-improvement counter, and early stop fires
after `patience` records regardless of the scores. -/
theorem C5_monitor_stops_on_strictly_increasing :
    should_stop_early (monitor_run [1, 2, 3, 4, 5, 6, 7, 8, 9, 10]) = true := by
  have h := monitor_sentinel_fold [1, 2, 3, 4, 5, 6, 7, 8, 9, 10] (init_monitor 10)
    (by simp [init_monitor]) (by norm_num [init_monitor])
  rw [should_stop_early, monitor_run, h.2.2]
  simp [init_monitor]

/-- A one-dimensional grid candidate `{x: v}` with `0 ≤ v ≤ 10` is already
valid for the default grid-search handler (every Luma business constraint
references only missing identifiers), so repair returns it unchanged. -/
theorem grid_example_repair (v : ℚ) (h0 : ¬v < 0) (h1 : ¬v > 10) :
    validate_and_repair_optimization_params
        (luma_constraint_handler [(split_dotted "x", 0, 10)])
        (.node (.cons "x" (.leaf v) .nil)) =
      .ok (.node (.cons "x" (.leaf v) .nil)) := by
  simp [validate_and_repair_optimization_params, validate_params,
    luma_constraint_handler, luma_default_unit_params, split_dotted, split_chars,
    check_boundary_constraints, check_distribution_constraints,
    check_relationship_constraints, collect_param_values, collect_param_presence,
    get_nested_numeric, get_nested_param_value, PDict.find, List.lookup,
    price_logic_constraint, Except.map, Except.bind, bind, pure, Except.pure,
    List.isEmpty, h0, h1]

set_option maxHeartbeats 2000000 in
/-- Claim C4 (code bug): the example scenario — parameter space `{x: (0,10)}`,
objective `f(x) = -(x-7)^2`, grid search with 11 points per dimension — does
not return `x = 7` with score `0`: the default monitor increments its
no-improvement counter on every record (see C5), so after
`patience = max(5, 11 // 20) = 5` evaluations the loop breaks, returning the
best of the first five grid points, `x = 4` with score `-9`. -/
theorem C4_grid_search_example_run :
    grid_search_optimizer example_objective [("x", 0, 10)] 11 =
      (.node (.cons "x" (.leaf 4) .nil), .val (-9)) := by
  have hcombos : cartesian_product (grid_values [("x", 0, 10)] 11) =
      [[0], [1], [2], [3], [4], [5], [6], [7], [8], [9], [10]] := by
    norm_num [grid_values, np_linspace, cartesian_product, List.range_succ]
  rw [grid_search_optimizer]
  simp only [List.isEmpty_cons, Bool.false_eq_true, if_false, List.map_cons,
    List.map_nil, hcombos, List.length_cons, List.length_nil]
  norm_num only []
  rw [grid_loop]
  rw [show mk_flat_dict ["x"] [0] = .cons "x" (.leaf 0) .nil from rfl,
    grid_example_repair 0 (by norm_num) (by norm_num)]
  norm_num [example_objective, get_nested_numeric, get_nested_param_value,
    PDict.find, record_iteration, monitor_improvement, Score.gtq, Score.maxS,
    Score.ltb, mean_lt, List.filterMap, should_stop_early, init_monitor]
  rw [grid_loop]
  rw [show mk_flat_dict ["x"] [1] = .cons "x" (.leaf 1) .nil from rfl,
    grid_example_repair 1 (by norm_num) (by norm_num)]
  norm_num [example_objective, get_nested_numeric, get_nested_param_value,
    PDict.find, record_iteration, monitor_improvement, Score.gtq, Score.maxS,
    Score.ltb, mean_lt, List.filterMap, should_stop_early]
  rw [grid_loop]
  rw [show mk_flat_dict ["x"] [2] = .cons "x" (.leaf 2) .nil from rfl,
    grid_example_repair 2 (by norm_num) (by norm_num)]
  norm_num [example_objective, get_nested_numeric, get_nested_param_value,
    PDict.find, record_iteration, monitor_improvement, Score.gtq, Score.maxS,
    Score.ltb, mean_lt, List.filterMap, should_stop_early]
  rw [grid_loop]
  rw [show mk_flat_dict ["x"] [3] = .cons "x" (.leaf 3) .nil from rfl,
    grid_example_repair 3 (by norm_num) (by norm_num)]
  norm_num [example_objective, get_nested_numeric, get_nested_param_value,
    PDict.find, record_iteration, monitor_improvement, Score.gtq, Score.maxS,
    Score.ltb, mean_lt, List.filterMap, should_stop_early]
  rw [grid_loop]
  rw [show mk_flat_dict ["x"] [4] = .cons "x" (.leaf 4) .nil from rfl,
    grid_example_repair 4 (by norm_num) (by norm_num)]
  norm_num [example_objective, get_nested_numeric, get_nested_param_value,
    PDict.find, record_iteration, monitor_improvement, Score.gtq, Score.maxS,
    Score.ltb, mean_lt, List.filterMap, should_stop_early]

/-- Folding addition of per-element contributions equals the initial value
plus the sum of the mapped list. -/
theorem foldl_add_eq_sum {α : Type} (f : α → ℚ) (l : List α) (a : ℚ) :
    l.foldl (fun acc e => acc + f e) a = a + (l.map f).sum := by
  induction l generalizing a with
  | nil => simp
  | cons e rest ih => simp [ih, add_assoc]

/-- The penalty accumulator decomposes into the three component sums. -/
theorem penalty_decomposition (x : FlatParams) :
    calculate_penalty_score x = penalty_component_sum x := by
  rw [calculate_penalty_score, penalty_component_sum,
    foldl_add_eq_sum (range_penalty_term x) reasonable_ranges 0,
    foldl_add_eq_sum (share_penalty_term x) share_acceptance_thresholds]
  ring

/-- Claim C6 (counterexample): on `{price_annual_member: 75}` the code's
penalty is `(75-60)/60*100 = 25`, but the claimed formula — out-of-range
distance normalized by the range *width* — gives `(75-60)/(60-15)*100 = 100/3`.
The code normalizes by the violated bound, not by the range width. -/
theorem C6_counterexample :
    calculate_penalty_score [("price_annual_member", 75)] ≠
      penalty_spec_width [("price_annual_member", 75)] := by
  simp only [calculate_penalty_score, penalty_spec_width, reasonable_ranges,
    share_acceptance_thresholds, range_penalty_term, share_penalty_term,
    volume_penalty_term, flookup, List.foldl, List.map, List.sum_cons,
    List.sum_nil, String.reduceEq, reduceIte]
  norm_num

/-- Claim C6 (amended): the penalty equals the sum of (i) for each identifier
with a known realistic range, its out-of-range distance normalized by the
violated bound (`min` below the range, `max` above it) and scaled ×100;
(ii) for each share identifier above its acceptance threshold, the excess over
the threshold scaled ×200; and (iii) for the volume identifier above its cap,
the excess over the cap scaled ×50. -/
theorem C6_penalty_component_sum (x : FlatParams) :
    calculate_penalty_score x = penalty_component_sum x :=
  penalty_decomposition x

/-- Python `max` over a nonempty sequence is an upper bound of it. -/
theorem best_single_is_max (rest : List StrategyResult) :
    ∀ r0 : StrategyResult, r0.best_score ≤ (best_single r0 rest).best_score ∧
      ∀ s ∈ rest, s.best_score ≤ (best_single r0 rest).best_score := by
  induction rest with
  | nil => intro r0; simp [best_single]
  | cons r1 rest ih =>
    intro r0
    have hstep : best_single r0 (r1 :: rest) =
        best_single (if r0.best_score < r1.best_score then r1 else r0) rest := by
      simp [best_single]
    obtain ⟨h1, h2⟩ := ih (if r0.best_score < r1.best_score then r1 else r0)
    rw [hstep]
    refine ⟨?_, ?_⟩
    · refine le_trans ?_ h1
      split <;> simp_all [le_of_lt]
    · intro s hs
      rcases List.mem_cons.mp hs with rfl | hs
      · refine le_trans ?_ h1
        split <;> simp_all [le_of_not_lt]
      · exact h2 s hs

/-- Claim C8 (counterexample): a run whose only successful strategy has best
score `0` makes the fusion weights sum to zero; `_calculate_ensemble_params`
then divides by the zero total weight (`ZeroDivisionError`), so fusion raises
instead of producing a result — in particular no fused result with score at
least the maximum (here `0`) exists for this run. -/
theorem C8_counterexample :
    merge_results [cex8_result] (fun _ => .ok 5) = .error () := by
  simp [merge_results, calculate_ensemble_params, result_weight, cex8_result,
    Except.map]

/-- Claim C8 (amended): whenever fusion completes (the score-weight
normalization does not divide by a zero total weight), the fused result's best
score is at least every successful strategy's best score. -/
theorem C8_fused_score_not_worse (results : List StrategyResult)
    (evalFn : FlatParams → Except Unit ℚ) (r : StrategyResult)
    (h : merge_results results evalFn = .ok r) :
    ∀ s ∈ results, s.best_score ≤ r.best_score := by
  match results with
  | [] => simp [merge_results] at h
  | r0 :: rest =>
    rw [merge_results] at h
    rcases hc : calculate_ensemble_params (r0 :: rest) with e | ep
    · rw [hc] at h
      simp [Except.map] at h
    · rw [hc] at h
      simp only [Except.map, Except.ok.injEq] at h
      obtain ⟨hb1, hb2⟩ := best_single_is_max rest r0
      have hub : ∀ s ∈ r0 :: rest, s.best_score ≤ (best_single r0 rest).best_score := by
        intro s hs
        rcases List.mem_cons.mp hs with rfl | hs
        · exact hb1
        · exact hb2 s hs
      intro s hs
      split at h
      next es heq =>
        split at h
        next hlt =>
          rw [← h]
          exact le_of_lt (lt_of_le_of_lt (hub s hs) hlt)
        next hlt =>
          rw [← h]
          exact hub s hs
      next e heq =>
        rw [← h]
        exact hub s hs

/-- Claim C8 (witness): a concrete two-strategy fusion where the theorem
yields that the grid strategy's score 1 is below the fused score 3. -/
theorem C8_witness :
    (⟨"grid_search", [("x", 1)], 1, false⟩ : StrategyResult).best_score ≤
      (⟨"best_single:" ++ "genetic_algorithm", [("y", 3)], 3, false⟩ : StrategyResult).best_score := by
  refine C8_fused_score_not_worse wit8_results (fun _ => .ok 2)
    ⟨"best_single:" ++ "genetic_algorithm", [("y", 3)], 3, false⟩ ?_
    ⟨"grid_search", [("x", 1)], 1, false⟩ (by simp [wit8_results])
  simp only [wit8_results, merge_results, calculate_ensemble_params, result_weight,
    best_single, List.foldl, Except.map, List.isEmpty, List.flatMap, List.map,
    flookup, List.filterMap, String.reduceEq, reduceIte]
  norm_num [List.dedup_cons_of_not_mem]

/-- Claim C9: a strategy that raises is excluded: the collected results are
exactly the successful outcomes in order, fusion runs on those, an ensemble
whose strategies all fail raises (`ValueError`, surfaced to the caller), and
in the 3-strategies-1-throwing example the final result is fused from the
remaining two. -/
theorem C9_strategy_failure_isolation :
    (∀ (outcomes : List (String × Except Unit StrategyResult)),
      collect_results outcomes = outcomes.filterMap (fun o => o.2.toOption)) ∧
    (∀ (outcomes : List (String × Except Unit StrategyResult))
      (evalFn : FlatParams → Except Unit ℚ),
      (∀ o ∈ outcomes, o.2.toOption = none) →
        ensemble_optimize outcomes evalFn = .error ()) ∧
    (∀ (n1 n2 n3 : String) (r1 r3 : StrategyResult)
      (evalFn : FlatParams → Except Unit ℚ),
      ensemble_optimize [(n1, .ok r1), (n2, .error ()), (n3, .ok r3)] evalFn =
        merge_results [r1, r3] evalFn) := by
  have hcollect : ∀ (outcomes : List (String × Except Unit StrategyResult))
      (acc : List StrategyResult),
      outcomes.foldl (fun acc o => match o.2 with | .ok r => acc ++ [r] | .error _ => acc) acc =
        acc ++ outcomes.filterMap (fun o => o.2.toOption) := by
    intro outcomes
    induction outcomes with
    | nil => simp
    | cons o rest ih =>
      intro acc
      rcases o with ⟨n, e | r⟩
      · simpa [Except.toOption] using ih acc
      · simp only [List.foldl_cons, List.filterMap_cons, Except.toOption]
        rw [ih (acc ++ [r])]
        simp [Except.toOption]
  have h1 : ∀ (outcomes : List (String × Except Unit StrategyResult)),
      collect_results outcomes = outcomes.filterMap (fun o => o.2.toOption) := by
    intro outcomes
    simpa using hcollect outcomes []
  refine ⟨h1, ?_, ?_⟩
  · intro outcomes evalFn hall
    have : outcomes.filterMap (fun o => o.2.toOption) = [] := by
      rw [List.filterMap_eq_nil_iff]
      intro o ho
      exact hall o ho
    rw [ensemble_optimize, h1, this, merge_results]
  · intro n1 n2 n3 r1 r3 evalFn
    rw [ensemble_optimize, h1]
    simp [Except.toOption]

/-- Claim C9 (witness): the all-failed case at a concrete input — a single
throwing strategy makes the ensemble itself raise. -/
theorem C9_witness :
    ensemble_optimize [("grid_search", .error ())] (fun _ => .ok 1) = .error () :=
  C9_strategy_failure_isolation.2.1 [("grid_search", .error ())] (fun _ => .ok 1)
    (by simp [Except.toOption])

/-- Claim C3 (counterexample): for the sum-to-target constraint over
`a.b` and `c` with assignment `{a: 2.0, c: 1.0}`, the dotted-path lookup of
`a.b` fails (subscripting the float `2.0` raises `TypeError`), yet `validate`
does not skip the constraint: the `TypeError` escapes the inner
`except KeyError`, is caught by the outer `except Exception`, and the
constraint is flagged as a check-error violation, so `is_valid` is `False`
although the claim requires the constraint to be skipped (which would leave
the assignment valid). -/
theorem C3_counterexample :
    validate_params cex3_handler cex3_params = .ok (false, [.checkErr 1]) := by
  simp [validate_params, cex3_handler, cex3_params, check_boundary_constraints,
    check_distribution_constraints, check_relationship_constraints,
    collect_param_values, get_nested_numeric, get_nested_param_value,
    PDict.find, Except.map]

/-- If none of the listed lookups raises `TypeError`, collecting distribution
values cannot raise. -/
theorem collect_param_values_ok (ps : List (List String)) (t : PVal)
    (h : ∀ p ∈ ps, get_nested_numeric t p ≠ .error .typeErr) :
    ∃ r, collect_param_values ps t = .ok r := by
  induction ps with
  | nil => exact ⟨([], []), rfl⟩
  | cons p rest ih =>
    obtain ⟨r, hr⟩ := ih (fun q hq => h q (List.mem_cons_of_mem p hq))
    rcases hg : get_nested_numeric t p with e | v
    · cases e with
      | keyErr => exact ⟨(r.1, p :: r.2), by simp [collect_param_values, hg, hr, Except.map]⟩
      | typeErr => exact absurd hg (h p (List.mem_cons_self p rest))
    · exact ⟨((p, v) :: r.1, r.2), by simp [collect_param_values, hg, hr, Except.map]⟩

/-- If none of the listed lookups raises `TypeError`, the presence check of a
relationship constraint cannot raise. -/
theorem collect_param_presence_ok (ps : List (List String)) (t : PVal)
    (h : ∀ p ∈ ps, get_nested_param_value t p ≠ .error .typeErr) :
    ∃ r, collect_param_presence ps t = .ok r := by
  induction ps with
  | nil => exact ⟨[], rfl⟩
  | cons p rest ih =>
    obtain ⟨r, hr⟩ := ih (fun q hq => h q (List.mem_cons_of_mem p hq))
    rcases hg : get_nested_param_value t p with e | v
    · cases e with
      | keyErr => exact ⟨p :: r, by simp [collect_param_presence, hg, hr, Except.map]⟩
      | typeErr => exact absurd hg (h p (List.mem_cons_self p rest))
    · exact ⟨r, by simp [collect_param_presence, hg, hr]⟩

/-- Boundary checking with `KeyError`-only failures equals its skip-missing
specification. -/
theorem check_boundary_key_fail_eq (bs : List (List String × ℚ × ℚ)) (t : PVal) :
    (∀ e ∈ bs, get_nested_numeric t e.1 ≠ .error .typeErr) →
      check_boundary_constraints bs t = .ok (check_boundary_skip_missing bs t) := by
  induction bs with
  | nil => intro _; rfl
  | cons e rest ih =>
    intro hb
    have ihr := ih (fun q hq => hb q (List.mem_cons_of_mem e hq))
    obtain ⟨p, mn, mx⟩ := e
    rcases hg : get_nested_numeric t p with er | v
    · cases er with
      | keyErr =>
        simp [check_boundary_constraints, check_boundary_skip_missing, hg, ihr]
      | typeErr => exact absurd hg (hb (p, mn, mx) (List.mem_cons_self _ rest))
    · simp [check_boundary_constraints, check_boundary_skip_missing, hg, ihr, Except.map]

/-- Distribution checking with `KeyError`-only failures equals its
skip-missing specification. -/
theorem check_distribution_key_fail_eq (cs : List DistributionConstraint) (tol : ℚ) (t : PVal) :
    (∀ c ∈ cs, ∀ p ∈ c.params, get_nested_numeric t p ≠ .error .typeErr) →
      check_distribution_constraints cs tol t = check_distribution_skip_missing cs tol t := by
  induction cs with
  | nil => intro _; rfl
  | cons c rest ih =>
    intro hd
    have ihr := ih (fun c' hc' => hd c' (List.mem_cons_of_mem c hc'))
    obtain ⟨r, hcol⟩ := collect_param_values_ok c.params t (hd c (List.mem_cons_self c rest))
    simp [check_distribution_constraints, check_distribution_skip_missing, hcol, ihr]

/-- Relationship checking with `KeyError`-only failures equals its
skip-missing specification. -/
theorem check_relationship_key_fail_eq (cs : List RelationshipConstraint) (t : PVal) :
    (∀ c ∈ cs, ∀ p ∈ c.params, get_nested_param_value t p ≠ .error .typeErr) →
      check_relationship_constraints cs t = check_relationship_skip_missing cs t := by
  induction cs with
  | nil => intro _; rfl
  | cons c rest ih =>
    intro hr
    have ihr := ih (fun c' hc' => hr c' (List.mem_cons_of_mem c hc'))
    obtain ⟨r, hcol⟩ := collect_param_presence_ok c.params t (hr c (List.mem_cons_self c rest))
    simp [check_relationship_constraints, check_relationship_skip_missing, hcol, ihr]

/-- Claim C3 (amended): when every failing lookup fails with a missing key
(`KeyError`, the normal "identifier absent" case) rather than a `TypeError`,
`validate` equals the specification-side validation that skips every
constraint with a missing identifier and checks all fully-present
constraints — in particular a constraint with a missing identifier produces
no violation, and `is_valid` depends only on the fully-present constraints. -/
theorem C3_validate_skips_missing_keys (H : ConstraintHandler) (t : PVal)
    (h : lookups_key_fail_only H t) :
    validate_params H t = .ok (validate_skip_missing H t) := by
  obtain ⟨hb, hd, hr⟩ := h
  rw [validate_params, check_boundary_key_fail_eq H.boundary_constraints t hb,
    validate_skip_missing,
    check_distribution_key_fail_eq H.distribution_constraints H.constraint_tolerance t hd,
    check_relationship_key_fail_eq H.relationship_constraints t hr]
  rfl

/-- Claim C3 (witness): a concrete assignment `{c: 1}` for which the sum
constraint's identifiers are missing by `KeyError` only; the theorem applies
and the constraint is skipped. -/
theorem C3_witness :
    validate_params cex3_handler (.node (.cons "c" (.leaf 1) .nil)) =
      .ok (validate_skip_missing cex3_handler (.node (.cons "c" (.leaf 1) .nil))) :=
  C3_validate_skips_missing_keys cex3_handler (.node (.cons "c" (.leaf 1) .nil))
    (by
      refine ⟨?_, ?_, ?_⟩ <;>
        simp [cex3_handler, get_nested_numeric, get_nested_param_value, PDict.find])

/-!
### Nested get/set lemmas
-/

/-- Looking up in a dictionary after an assignment. -/
theorem find_set : ∀ (d : PDict) (k k' : String) (v : PVal),
    (d.set k v).find k' = if k = k' then some v else d.find k'
  | .nil, k, k', v => by
    by_cases h : k = k' <;> simp [PDict.set, PDict.find, h]
  | .cons k0 v0 rest, k, k', v => by
    by_cases h0 : k0 = k
    · subst h0
      by_cases h : k0 = k' <;> simp [PDict.set, PDict.find, h]
    · by_cases h : k = k'
      · subst h
        simp [PDict.set, PDict.find, h0, find_set rest]
      · simp only [PDict.set, if_neg h0, PDict.find]
        by_cases h1 : k0 = k' <;> simp [h1, find_set rest, h]

/-- Unfolding numeric lookup one key at a time. -/
theorem get_nested_numeric_cons (es : PDict) (k : String) (ks : List String) :
    get_nested_numeric (.node es) (k :: ks) =
      match es.find k with
      | none => .error .keyErr
      | some v => get_nested_numeric v ks := by
  rcases hf : es.find k with _ | v <;>
    simp [get_nested_numeric, get_nested_param_value, hf]

/-- Numeric lookup of the empty path in a dictionary raises `TypeError`. -/
theorem get_nested_numeric_nil_node (es : PDict) :
    get_nested_numeric (.node es) [] = .error .typeErr := rfl

/-- Numeric lookup inside a number raises `TypeError`. -/
theorem get_nested_numeric_leaf_cons (v : ℚ) (k : String) (ks : List String) :
    get_nested_numeric (.leaf v) (k :: ks) = .error .typeErr := rfl

/-- The central get/set lemma: a nested set on a path that currently resolves
to a number succeeds and changes the numeric view of the tree at exactly that
path. -/
theorem set_nested_of_get_ok (q : List String) (hq : q ≠ []) :
    ∀ (t : PVal) (u w : ℚ), get_nested_numeric t q = .ok u →
      ∃ t', set_nested_param_value t q w = .ok t' ∧
        ∀ p, get_nested_numeric t' p = if p = q then .ok w else get_nested_numeric t p := by
  induction q with
  | nil => exact absurd rfl hq
  | cons k q' ih =>
    intro t u w hget
    match t with
    | .leaf v => simp [get_nested_numeric_leaf_cons] at hget
    | .node es =>
      rw [get_nested_numeric_cons] at hget
      rcases hf : es.find k with _ | t0
      · rw [hf] at hget
        simp at hget
      · rw [hf] at hget
        simp only [] at hget
        match q' with
        | [] =>
          match t0 with
          | .node d0 => simp [get_nested_numeric_nil_node] at hget
          | .leaf v0 =>
            refine ⟨.node (es.set k (.leaf w)), by simp [set_nested_param_value], ?_⟩
            intro p
            match p with
            | [] => simp [get_nested_numeric_nil_node]
            | k' :: ps =>
              simp only [get_nested_numeric_cons, find_set]
              by_cases hk : k = k'
              · subst hk
                simp only [if_pos rfl, hf]
                match ps with
                | [] => simp [get_nested_numeric, get_nested_param_value]
                | p1 :: ps' =>
                  simp [get_nested_numeric_leaf_cons]
              · simp only [if_neg hk, if_neg (by simp [Ne.symm hk] :
                  ¬(k' :: ps = [k]))]
        | k2 :: q'' =>
          obtain ⟨t0', hset, hstat⟩ := ih (by simp) t0 u w hget
          refine ⟨.node (es.set k t0'), ?_, ?_⟩
          · simp [set_nested_param_value, hf, hset, Except.map]
          · intro p
            match p with
            | [] => simp [get_nested_numeric_nil_node]
            | k' :: ps =>
              simp only [get_nested_numeric_cons, find_set]
              by_cases hk : k = k'
              · subst hk
                simp only [if_pos rfl, hf]
                by_cases hp : ps = k2 :: q''
                · simp [hp, hstat]
                · simp [hstat, hp, get_nested_numeric_cons, hf]
              · have hk' : k' ≠ k := fun h => hk h.symm
                simp [hk', get_nested_numeric_cons, hk]

/-- Setting along the empty path always raises. -/
theorem set_nested_nil (t : PVal) (w : ℚ) : set_nested_param_value t [] w = .error () := by
  match t with
  | .leaf v => rfl
  | .node es => rfl

/-- A successful nested set starts and ends at a dictionary. -/
theorem set_nested_ok_node (t : PVal) (q : List String) (w : ℚ) (t' : PVal)
    (h : set_nested_param_value t q w = .ok t') :
    (∃ es, t = .node es) ∧ ∃ es', t' = .node es' := by
  match t, q with
  | .leaf v, q => simp [set_nested_param_value] at h
  | .node es, [] => simp [set_nested_param_value] at h
  | .node es, [k] =>
    refine ⟨⟨es, rfl⟩, ⟨es.set k (.leaf w), ?_⟩⟩
    simp [set_nested_param_value] at h
    exact h.symm
  | .node es, k :: k2 :: ks =>
    refine ⟨⟨es, rfl⟩, ?_⟩
    rw [set_nested_param_value] at h
    rcases hf : es.find k with _ | t0 <;> rw [hf] at h <;> simp only [] at h
    · rcases hs : set_nested_param_value (.node .nil) (k2 :: ks) w with e | t1
      · rw [hs] at h
        simp [Except.map] at h
      · rw [hs] at h
        simp only [Except.map, Except.ok.injEq] at h
        exact ⟨_, h.symm⟩
    · rcases hs : set_nested_param_value t0 (k2 :: ks) w with e | t1
      · rw [hs] at h
        simp [Except.map] at h
      · rw [hs] at h
        simp only [Except.map, Except.ok.injEq] at h
        exact ⟨_, h.symm⟩

/-- A numeric read that succeeds on a dictionary uses a nonempty path. -/
theorem get_ok_path_ne_nil (es : PDict) (p : List String) (v : ℚ)
    (h : get_nested_numeric (.node es) p = .ok v) : p ≠ [] := by
  intro hp
  subst hp
  simp [get_nested_numeric_nil_node] at h

/-- The clamp `max(min_val, min(max_val, value))` lands inside `[min, max]`
when `min ≤ max`. -/
theorem clampQ_mem (mn mx v : ℚ) (h : mn ≤ mx) :
    mn ≤ clampQ mn mx v ∧ clampQ mn mx v ≤ mx :=
  ⟨le_max_left _ _, max_le h (min_le_left _ _)⟩

/-- In a list with unique keys, `lookup` of a member's key returns its value. -/
theorem nodup_lookup {β : Type} : ∀ (l : List (List String × β)),
    (l.map Prod.fst).Nodup → ∀ e ∈ l, l.lookup e.1 = some e.2 := by
  intro l
  induction l with
  | nil => intro _ e he; simp at he
  | cons a rest ih =>
    intro hnd e he
    simp only [List.map_cons, List.nodup_cons] at hnd
    rcases List.mem_cons.mp he with rfl | he'
    · simp [List.lookup]
    · have hne : a.1 ≠ e.1 := by
        intro hc
        exact hnd.1 (hc ▸ List.mem_map_of_mem Prod.fst he')
      have hbeq : (e.1 == a.1) = false := beq_eq_false_iff_ne.mpr (Ne.symm hne)
      simp only [List.lookup, hbeq]
      exact ih hnd.2 e he'

/-- Collected entries come from the identifier list and read back. -/
theorem collect_ok_entries : ∀ (ps : List (List String)) (t : PVal) (vs : List (List String × ℚ))
    (ms : List (List String)), collect_param_values ps t = .ok (vs, ms) →
    ∀ pv ∈ vs, pv.1 ∈ ps ∧ get_nested_numeric t pv.1 = .ok pv.2 := by
  intro ps
  induction ps with
  | nil =>
    intro t vs ms h pv hpv
    simp only [collect_param_values, Except.ok.injEq, Prod.mk.injEq] at h
    rw [← h.1] at hpv
    simp at hpv
  | cons p rest ih =>
    intro t vs ms h pv hpv
    rw [collect_param_values] at h
    rcases hg : get_nested_numeric t p with e | v <;> rw [hg] at h
    · cases e
      case keyErr =>
        rcases hr : collect_param_values rest t with e' | r
        · rw [hr] at h
          simp [Except.map] at h
        · rw [hr] at h
          obtain ⟨vs', ms'⟩ := r
          simp only [Except.map, Except.ok.injEq, Prod.mk.injEq] at h
          obtain ⟨h1, h2⟩ := h
          rw [← h1] at hpv
          obtain ⟨hmem, hget⟩ := ih t vs' ms' hr pv hpv
          exact ⟨List.mem_cons_of_mem p hmem, hget⟩
      case typeErr => simp at h
    · rcases hr : collect_param_values rest t with e' | r
      · rw [hr] at h
        simp [Except.map] at h
      · rw [hr] at h
        obtain ⟨vs', ms'⟩ := r
        simp only [Except.map, Except.ok.injEq, Prod.mk.injEq] at h
        obtain ⟨h1, h2⟩ := h
        rw [← h1] at hpv
        rcases List.mem_cons.mp hpv with hpv0 | hpv'
        · subst hpv0
          exact ⟨List.mem_cons_self p rest, hg⟩
        · obtain ⟨hmem, hget⟩ := ih t vs' ms' hr pv hpv'
          exact ⟨List.mem_cons_of_mem p hmem, hget⟩

/-- Collecting identifiers that all read back through a value function. -/
theorem collect_of_fun (f : List String → ℚ) : ∀ (ps : List (List String)) (t : PVal),
    (∀ p ∈ ps, get_nested_numeric t p = .ok (f p)) →
    collect_param_values ps t = .ok (ps.map (fun p => (p, f p)), []) := by
  intro ps
  induction ps with
  | nil => intro t _; rfl
  | cons p rest ih =>
    intro t h
    rw [collect_param_values, h p (List.mem_cons_self p rest),
      ih t (fun q hq => h q (List.mem_cons_of_mem p hq))]
    rfl

/-- Collection only reads the listed identifiers. -/
theorem collect_congr : ∀ (ps : List (List String)) (t t' : PVal),
    (∀ p ∈ ps, get_nested_numeric t' p = get_nested_numeric t p) →
    collect_param_values ps t' = collect_param_values ps t := by
  intro ps
  induction ps with
  | nil => intro t t' _; rfl
  | cons p rest ih =>
    intro t t' h
    rw [collect_param_values, collect_param_values,
      h p (List.mem_cons_self p rest), ih t t' (fun q hq => h q (List.mem_cons_of_mem p hq))]

/-- Boundary repair on a dictionary yields a dictionary. -/
theorem repair_boundary_node : ∀ (bs : List (List String × ℚ × ℚ)) (es : PDict) (t' : PVal),
    repair_boundary_constraints bs (.node es) = .ok t' → ∃ es', t' = .node es' := by
  intro bs
  induction bs with
  | nil =>
    intro es t' h
    rw [repair_boundary_constraints] at h
    injection h with h
    exact ⟨es, h.symm⟩
  | cons e0 rest ih =>
    intro es t' h
    obtain ⟨p0, mn, mx⟩ := e0
    rw [repair_boundary_constraints] at h
    rcases hg : get_nested_numeric (.node es) p0 with er | v <;> rw [hg] at h
    · cases er
      case keyErr =>
        simp only [] at h
        exact ih es t' h
      case typeErr => simp at h
    · simp only [] at h
      by_cases hviol : v < mn ∨ v > mx
      · rw [if_pos hviol] at h
        rcases hs : set_nested_param_value (.node es) p0 (clampQ mn mx v) with e | t1 <;>
          rw [hs] at h <;> simp only [] at h
        · simp at h
        · obtain ⟨_, es1, ht1⟩ := set_nested_ok_node _ _ _ _ hs
          subst ht1
          exact ih es1 t' h
      · rw [if_neg hviol] at h
        exact ih es t' h

/-- Boundary repair only writes boundary-constrained identifiers and keeps
every resolvable identifier resolvable. -/
theorem repair_boundary_status : ∀ (bs : List (List String × ℚ × ℚ)) (t t' : PVal),
    repair_boundary_constraints bs t = .ok t' →
    (∀ p, (∀ e ∈ bs, e.1 ≠ p) → get_nested_numeric t' p = get_nested_numeric t p) ∧
    (∀ p u, get_nested_numeric t p = .ok u → ∃ w, get_nested_numeric t' p = .ok w) := by
  intro bs
  induction bs with
  | nil =>
    intro t t' h
    rw [repair_boundary_constraints] at h
    injection h with h
    subst h
    exact ⟨fun p _ => rfl, fun p u hu => ⟨u, hu⟩⟩
  | cons e0 rest ih =>
    intro t t' h
    obtain ⟨p0, mn, mx⟩ := e0
    rw [repair_boundary_constraints] at h
    rcases hg : get_nested_numeric t p0 with er | v <;> rw [hg] at h
    · cases er
      case keyErr =>
        simp only [] at h
        obtain ⟨hfr, hst⟩ := ih t t' h
        exact ⟨fun p hp => hfr p (fun e he => hp e (List.mem_cons_of_mem _ he)), hst⟩
      case typeErr => simp at h
    · simp only [] at h
      by_cases hviol : v < mn ∨ v > mx
      · rw [if_pos hviol] at h
        have hp0ne : p0 ≠ [] := by
          intro hnil
          subst hnil
          rw [set_nested_nil] at h
          simp at h
        obtain ⟨t1, hset, hstat⟩ := set_nested_of_get_ok p0 hp0ne t v (clampQ mn mx v) hg
        rw [hset] at h
        simp only [] at h
        obtain ⟨hfr, hst⟩ := ih t1 t' h
        constructor
        · intro p hp
          have hne : ¬(p = p0) := fun hc => hp (p0, mn, mx) (List.mem_cons_self _ _) hc.symm
          rw [hfr p (fun e he => hp e (List.mem_cons_of_mem _ he)), hstat p, if_neg hne]
        · intro p u hu
          by_cases hpp : p = p0
          · subst hpp
            exact hst p (clampQ mn mx v) (by rw [hstat p, if_pos rfl])
          · exact hst p u (by rw [hstat p, if_neg hpp]; exact hu)
      · rw [if_neg hviol] at h
        obtain ⟨hfr, hst⟩ := ih t t' h
        exact ⟨fun p hp => hfr p (fun e he => hp e (List.mem_cons_of_mem _ he)), hst⟩

/-- After boundary repair, every well-formed registered boundary holds
(uniqueness of the dictionary keys is essential: a later entry cannot undo an
earlier clamp). -/
theorem repair_boundary_bounds : ∀ (bs : List (List String × ℚ × ℚ)),
    bounds_wf bs → (bs.map Prod.fst).Nodup → ∀ (t t' : PVal),
    repair_boundary_constraints bs t = .ok t' → bounds_ok bs t' := by
  intro bs
  induction bs with
  | nil =>
    intro _ _ t t' _ e he
    simp at he
  | cons e0 rest ih =>
    intro hwf hnd t t' h
    obtain ⟨p0, mn, mx⟩ := e0
    have hwf0 : mn ≤ mx := hwf (p0, mn, mx) (List.mem_cons_self _ _)
    have hwfr : bounds_wf rest := fun e he => hwf e (List.mem_cons_of_mem _ he)
    simp only [List.map_cons, List.nodup_cons] at hnd
    have hrest_ne : ∀ e ∈ rest, e.1 ≠ p0 := by
      intro e he hc
      exact hnd.1 (hc ▸ List.mem_map_of_mem Prod.fst he)
    rw [repair_boundary_constraints] at h
    rcases hg : get_nested_numeric t p0 with er | v <;> rw [hg] at h
    · cases er
      case keyErr =>
        simp only [] at h
        intro e he v hv
        rcases List.mem_cons.mp he with rfl | he'
        · rw [(repair_boundary_status rest t t' h).1 p0 hrest_ne, hg] at hv
          simp at hv
        · exact ih hwfr hnd.2 t t' h e he' v hv
      case typeErr => simp at h
    · simp only [] at h
      by_cases hviol : v < mn ∨ v > mx
      · rw [if_pos hviol] at h
        have hp0ne : p0 ≠ [] := by
          intro hnil
          subst hnil
          rw [set_nested_nil] at h
          simp at h
        obtain ⟨t1, hset, hstat⟩ := set_nested_of_get_ok p0 hp0ne t v (clampQ mn mx v) hg
        rw [hset] at h
        simp only [] at h
        intro e he u hu
        rcases List.mem_cons.mp he with rfl | he'
        · rw [(repair_boundary_status rest t1 t' h).1 p0 hrest_ne, hstat p0, if_pos rfl] at hu
          injection hu with hu
          subst hu
          exact clampQ_mem mn mx v hwf0
        · exact ih hwfr hnd.2 t1 t' h e he' u hu
      · rw [if_neg hviol] at h
        push_neg at hviol
        intro e he u hu
        rcases List.mem_cons.mp he with rfl | he'
        · rw [(repair_boundary_status rest t t' h).1 p0 hrest_ne, hg] at hu
          injection hu with hu
          subst hu
          exact hviol
        · exact ih hwfr hnd.2 t t' h e he' u hu

/-- Boundary repair is the identity on assignments whose boundary lookups are
`TypeError`-free and whose present values are already in range. -/
theorem repair_boundary_noop : ∀ (bs : List (List String × ℚ × ℚ)) (t : PVal),
    (∀ e ∈ bs, get_nested_numeric t e.1 ≠ .error .typeErr ∧
      ∀ v, get_nested_numeric t e.1 = .ok v → e.2.1 ≤ v ∧ v ≤ e.2.2) →
    repair_boundary_constraints bs t = .ok t := by
  intro bs
  induction bs with
  | nil => intro t _; rfl
  | cons e0 rest ih =>
    intro t h
    obtain ⟨p0, mn, mx⟩ := e0
    obtain ⟨hte, hrange⟩ := h (p0, mn, mx) (List.mem_cons_self _ _)
    have hrest := fun e he => h e (List.mem_cons_of_mem _ he)
    rw [repair_boundary_constraints]
    rcases hg : get_nested_numeric t p0 with er | v
    · cases er
      case keyErr => exact ih t hrest
      case typeErr => exact absurd hg hte
    · have hr := hrange v hg
      simp only []
      rw [if_neg (by push_neg; exact ⟨hr.1, hr.2⟩)]
      exact ih t hrest

/-- Rescaling writes touch only the written identifiers and keep every
resolvable identifier resolvable. -/
theorem write_scaled_status (bs : List (List String × ℚ × ℚ)) (s : ℚ) :
    ∀ (t : PVal) (vs : List (List String × ℚ)),
    (∀ pv ∈ vs, ∃ u, get_nested_numeric t pv.1 = .ok u) →
    (∀ p, (∀ pv ∈ vs, pv.1 ≠ p) →
      get_nested_numeric (write_scaled bs s t vs) p = get_nested_numeric t p) ∧
    (∀ p u, get_nested_numeric t p = .ok u →
      ∃ w, get_nested_numeric (write_scaled bs s t vs) p = .ok w) := by
  intro t vs
  induction vs generalizing t with
  | nil => exact fun _ => ⟨fun p _ => rfl, fun p u hu => ⟨u, hu⟩⟩
  | cons pv0 rest ih =>
    intro hok
    obtain ⟨p0, v0⟩ := pv0
    obtain ⟨u0, hget⟩ := hok (p0, v0) (List.mem_cons_self _ _)
    rcases hset : set_nested_param_value t p0 (clamp_if_bounded bs p0 (v0 * s)) with e | t1
    · rw [write_scaled, hset]
      exact ⟨fun p _ => rfl, fun p u hu => ⟨u, hu⟩⟩
    · have hp0 : p0 ≠ [] := by
        intro hn
        subst hn
        rw [set_nested_nil] at hset
        simp at hset
      obtain ⟨t1', hset', hstat⟩ :=
        set_nested_of_get_ok p0 hp0 t u0 (clamp_if_bounded bs p0 (v0 * s)) hget
      have hok1 : ∀ pv ∈ rest, ∃ u, get_nested_numeric t1' pv.1 = .ok u := by
        intro pv hpv
        by_cases hpp : pv.1 = p0
        · exact ⟨_, by rw [hstat pv.1, if_pos hpp]⟩
        · obtain ⟨u, hu⟩ := hok pv (List.mem_cons_of_mem _ hpv)
          exact ⟨u, by rw [hstat pv.1, if_neg hpp]; exact hu⟩
      obtain ⟨ihf, ihs⟩ := ih t1' hok1
      rw [write_scaled, hset']
      constructor
      · intro p hp
        have hne : ¬(p = p0) := fun hc => hp (p0, v0) (List.mem_cons_self _ _) hc.symm
        rw [ihf p (fun pv hpv => hp pv (List.mem_cons_of_mem _ hpv)), hstat p, if_neg hne]
      · intro p u hu
        by_cases hpp : p = p0
        · exact ihs p _ (by rw [hstat p, if_pos hpp])
        · exact ihs p u (by rw [hstat p, if_neg hpp]; exact hu)

/-- Rescaling writes preserve satisfied boundaries: every written value is
re-clamped to its own boundary when one is registered. -/
theorem write_scaled_bounds (bs : List (List String × ℚ × ℚ)) (s : ℚ)
    (hwf : bounds_wf bs) (hnd : (bs.map Prod.fst).Nodup) :
    ∀ (t : PVal) (vs : List (List String × ℚ)),
    (∀ pv ∈ vs, ∃ u, get_nested_numeric t pv.1 = .ok u) →
    bounds_ok bs t → bounds_ok bs (write_scaled bs s t vs) := by
  intro t vs
  induction vs generalizing t with
  | nil => exact fun _ hb => hb
  | cons pv0 rest ih =>
    intro hok hb
    obtain ⟨p0, v0⟩ := pv0
    obtain ⟨u0, hget⟩ := hok (p0, v0) (List.mem_cons_self _ _)
    rcases hset : set_nested_param_value t p0 (clamp_if_bounded bs p0 (v0 * s)) with e | t1
    · rw [write_scaled, hset]
      exact hb
    · have hp0 : p0 ≠ [] := by
        intro hn
        subst hn
        rw [set_nested_nil] at hset
        simp at hset
      obtain ⟨t1', hset', hstat⟩ :=
        set_nested_of_get_ok p0 hp0 t u0 (clamp_if_bounded bs p0 (v0 * s)) hget
      have hok1 : ∀ pv ∈ rest, ∃ u, get_nested_numeric t1' pv.1 = .ok u := by
        intro pv hpv
        by_cases hpp : pv.1 = p0
        · exact ⟨_, by rw [hstat pv.1, if_pos hpp]⟩
        · obtain ⟨u, hu⟩ := hok pv (List.mem_cons_of_mem _ hpv)
          exact ⟨u, by rw [hstat pv.1, if_neg hpp]; exact hu⟩
      have hb1 : bounds_ok bs t1' := by
        intro e he v hv
        rw [hstat e.1] at hv
        by_cases hpp : e.1 = p0
        · rw [if_pos hpp] at hv
          injection hv with hv
          subst hv
          have hl : bs.lookup e.1 = some e.2 := nodup_lookup bs hnd e he
          rw [← hpp, clamp_if_bounded, hl]
          exact clampQ_mem e.2.1 e.2.2 _ (hwf e he)
        · rw [if_neg hpp] at hv
          exact hb e he v hv
      rw [write_scaled, hset']
      exact ih t1' hok1 hb1

/-- Rescaling a fully-present, unbounded, duplicate-free identifier group
multiplies each value by the scale factor and touches nothing else. -/
theorem write_scaled_values (bs : List (List String × ℚ × ℚ)) (s : ℚ)
    (f : List String → ℚ) :
    ∀ (t : PVal) (ps : List (List String)),
    ps.Nodup → (∀ p ∈ ps, bs.lookup p = none) → (∀ p ∈ ps, p ≠ []) →
    (∀ p ∈ ps, get_nested_numeric t p = .ok (f p)) →
    (∀ p ∈ ps, get_nested_numeric (write_scaled bs s t (ps.map (fun p => (p, f p)))) p
        = .ok (f p * s)) ∧
    (∀ p, (∀ q ∈ ps, q ≠ p) →
      get_nested_numeric (write_scaled bs s t (ps.map (fun p => (p, f p)))) p
        = get_nested_numeric t p) := by
  intro t ps
  induction ps generalizing t with
  | nil =>
    intro _ _ _ _
    exact ⟨fun p hp => by simp at hp, fun p _ => rfl⟩
  | cons p0 rest ih =>
    intro hnd hunb hne hget
    have hnd' := (List.nodup_cons.mp hnd).2
    have hp0nr : p0 ∉ rest := (List.nodup_cons.mp hnd).1
    have hcl : clamp_if_bounded bs p0 (f p0 * s) = f p0 * s := by
      rw [clamp_if_bounded, hunb p0 (List.mem_cons_self _ _)]
    obtain ⟨t1, hset, hstat⟩ := set_nested_of_get_ok p0 (hne p0 (List.mem_cons_self _ _)) t
      (f p0) (clamp_if_bounded bs p0 (f p0 * s)) (hget p0 (List.mem_cons_self _ _))
    have hget1 : ∀ p ∈ rest, get_nested_numeric t1 p = .ok (f p) := by
      intro p hp
      have hc0 : ¬(p = p0) := by
        intro hc
        exact hp0nr (hc ▸ hp)
      rw [hstat p, if_neg hc0]
      exact hget p (List.mem_cons_of_mem _ hp)
    obtain ⟨ihv, ihf⟩ := ih t1 hnd' (fun p hp => hunb p (List.mem_cons_of_mem _ hp))
      (fun p hp => hne p (List.mem_cons_of_mem _ hp)) hget1
    have hrp : ∀ q ∈ rest, q ≠ p0 := by
      intro q hq hc
      exact hp0nr (hc ▸ hq)
    rw [List.map_cons, write_scaled, hset]
    simp only []
    constructor
    · intro p hp
      rcases List.mem_cons.mp hp with rfl | hp'
      · rw [ihf p hrp, hstat p, if_pos rfl, hcl]
      · exact ihv p hp'
    · intro p hp
      have hne0 : ¬(p = p0) := fun hc => hp p0 (List.mem_cons_self _ _) hc.symm
      rw [ihf p (fun q hq => hp q (List.mem_cons_of_mem _ hq)), hstat p, if_neg hne0]

/-- Uniform-split writes touch only the written identifiers and keep every
resolvable identifier resolvable. -/
theorem write_uniform_status (bs : List (List String × ℚ × ℚ)) :
    ∀ (t : PVal) (avg : ℚ) (ps : List (List String)),
    (∀ p ∈ ps, ∃ u, get_nested_numeric t p = .ok u) →
    (∀ p, (∀ q ∈ ps, q ≠ p) →
      get_nested_numeric (write_uniform bs t avg ps) p = get_nested_numeric t p) ∧
    (∀ p u, get_nested_numeric t p = .ok u →
      ∃ w, get_nested_numeric (write_uniform bs t avg ps) p = .ok w) := by
  intro t avg ps
  induction ps generalizing t avg with
  | nil => exact fun _ => ⟨fun p _ => rfl, fun p u hu => ⟨u, hu⟩⟩
  | cons p0 rest ih =>
    intro hok
    obtain ⟨u0, hget⟩ := hok p0 (List.mem_cons_self _ _)
    rcases hset : set_nested_param_value t p0 (clamp_if_bounded bs p0 avg) with e | t1
    · rw [write_uniform, hset]
      exact ⟨fun p _ => rfl, fun p u hu => ⟨u, hu⟩⟩
    · have hp0 : p0 ≠ [] := by
        intro hn
        subst hn
        rw [set_nested_nil] at hset
        simp at hset
      obtain ⟨t1', hset', hstat⟩ :=
        set_nested_of_get_ok p0 hp0 t u0 (clamp_if_bounded bs p0 avg) hget
      have hok1 : ∀ p ∈ rest, ∃ u, get_nested_numeric t1' p = .ok u := by
        intro p hp
        by_cases hpp : p = p0
        · exact ⟨_, by rw [hstat p, if_pos hpp]⟩
        · obtain ⟨u, hu⟩ := hok p (List.mem_cons_of_mem _ hp)
          exact ⟨u, by rw [hstat p, if_neg hpp]; exact hu⟩
      obtain ⟨ihf, ihs⟩ := ih t1' (clamp_if_bounded bs p0 avg) hok1
      rw [write_uniform, hset']
      constructor
      · intro p hp
        have hne : ¬(p = p0) := fun hc => hp p0 (List.mem_cons_self _ _) hc.symm
        rw [ihf p (fun q hq => hp q (List.mem_cons_of_mem _ hq)), hstat p, if_neg hne]
      · intro p u hu
        by_cases hpp : p = p0
        · exact ihs p _ (by rw [hstat p, if_pos hpp])
        · exact ihs p u (by rw [hstat p, if_neg hpp]; exact hu)

/-- Uniform-split writes preserve satisfied boundaries. -/
theorem write_uniform_bounds (bs : List (List String × ℚ × ℚ))
    (hwf : bounds_wf bs) (hnd : (bs.map Prod.fst).Nodup) :
    ∀ (t : PVal) (avg : ℚ) (ps : List (List String)),
    (∀ p ∈ ps, ∃ u, get_nested_numeric t p = .ok u) →
    bounds_ok bs t → bounds_ok bs (write_uniform bs t avg ps) := by
  intro t avg ps
  induction ps generalizing t avg with
  | nil => exact fun _ hb => hb
  | cons p0 rest ih =>
    intro hok hb
    obtain ⟨u0, hget⟩ := hok p0 (List.mem_cons_self _ _)
    rcases hset : set_nested_param_value t p0 (clamp_if_bounded bs p0 avg) with e | t1
    · rw [write_uniform, hset]
      exact hb
    · have hp0 : p0 ≠ [] := by
        intro hn
        subst hn
        rw [set_nested_nil] at hset
        simp at hset
      obtain ⟨t1', hset', hstat⟩ :=
        set_nested_of_get_ok p0 hp0 t u0 (clamp_if_bounded bs p0 avg) hget
      have hok1 : ∀ p ∈ rest, ∃ u, get_nested_numeric t1' p = .ok u := by
        intro p hp
        by_cases hpp : p = p0
        · exact ⟨_, by rw [hstat p, if_pos hpp]⟩
        · obtain ⟨u, hu⟩ := hok p (List.mem_cons_of_mem _ hp)
          exact ⟨u, by rw [hstat p, if_neg hpp]; exact hu⟩
      have hb1 : bounds_ok bs t1' := by
        intro e he v hv
        rw [hstat e.1] at hv
        by_cases hpp : e.1 = p0
        · rw [if_pos hpp] at hv
          injection hv with hv
          subst hv
          have hl : bs.lookup e.1 = some e.2 := nodup_lookup bs hnd e he
          rw [← hpp, clamp_if_bounded, hl]
          exact clampQ_mem e.2.1 e.2.2 _ (hwf e he)
        · rw [if_neg hpp] at hv
          exact hb e he v hv
      rw [write_uniform, hset']
      exact ih t1' (clamp_if_bounded bs p0 avg) hok1 hb1

/-- A uniform split over a fully-present, unbounded, duplicate-free group
writes the average into every identifier and touches nothing else (absent a
clamp, the carried `avg_value` never changes). -/
theorem write_uniform_values (bs : List (List String × ℚ × ℚ)) :
    ∀ (t : PVal) (avg : ℚ) (ps : List (List String)),
    ps.Nodup → (∀ p ∈ ps, bs.lookup p = none) → (∀ p ∈ ps, p ≠ []) →
    (∀ p ∈ ps, ∃ u, get_nested_numeric t p = .ok u) →
    (∀ p ∈ ps, get_nested_numeric (write_uniform bs t avg ps) p = .ok avg) ∧
    (∀ p, (∀ q ∈ ps, q ≠ p) →
      get_nested_numeric (write_uniform bs t avg ps) p = get_nested_numeric t p) := by
  intro t avg ps
  induction ps generalizing t avg with
  | nil =>
    intro _ _ _ _
    exact ⟨fun p hp => by simp at hp, fun p _ => rfl⟩
  | cons p0 rest ih =>
    intro hnd hunb hne hok
    have hnd' := (List.nodup_cons.mp hnd).2
    have hp0nr : p0 ∉ rest := (List.nodup_cons.mp hnd).1
    have hcl : clamp_if_bounded bs p0 avg = avg := by
      rw [clamp_if_bounded, hunb p0 (List.mem_cons_self _ _)]
    obtain ⟨u0, hget⟩ := hok p0 (List.mem_cons_self _ _)
    obtain ⟨t1, hset, hstat⟩ := set_nested_of_get_ok p0 (hne p0 (List.mem_cons_self _ _)) t
      u0 (clamp_if_bounded bs p0 avg) hget
    have hok1 : ∀ p ∈ rest, ∃ u, get_nested_numeric t1 p = .ok u := by
      intro p hp
      obtain ⟨u, hu⟩ := hok p (List.mem_cons_of_mem _ hp)
      have hc0 : ¬(p = p0) := by
        intro hc
        exact hp0nr (hc ▸ hp)
      exact ⟨u, by rw [hstat p, if_neg hc0]; exact hu⟩
    obtain ⟨ihv, ihf⟩ := ih t1 (clamp_if_bounded bs p0 avg) hnd'
      (fun p hp => hunb p (List.mem_cons_of_mem _ hp))
      (fun p hp => hne p (List.mem_cons_of_mem _ hp)) hok1
    have hrp : ∀ q ∈ rest, q ≠ p0 := by
      intro q hq hc
      exact hp0nr (hc ▸ hq)
    rw [write_uniform, hset]
    simp only []
    rw [hcl] at ihv ihf hstat ⊢
    constructor
    · intro p hp
      rcases List.mem_cons.mp hp with rfl | hp'
      · rw [ihf p hrp, hstat p, if_pos rfl]
      · exact ihv p hp'
    · intro p hp
      have hne0 : ¬(p = p0) := fun hc => hp p0 (List.mem_cons_self _ _) hc.symm
      rw [ihf p (fun q hq => hp q (List.mem_cons_of_mem _ hq)), hstat p, if_neg hne0]

/-- Sum of a constant list. -/
theorem sum_map_const {α : Type} (l : List α) (c : ℚ) :
    (l.map (fun _ => c)).sum = l.length * c := by
  induction l with
  | nil => simp
  | cons a rest ih => simp [ih, add_mul]; ring

/-- Scaled writes after dictionary construction stay dictionaries. -/
theorem write_scaled_node (bs : List (List String × ℚ × ℚ)) (s : ℚ) :
    ∀ (es : PDict) (vs : List (List String × ℚ)),
    ∃ es', write_scaled bs s (.node es) vs = .node es' := by
  intro es vs
  induction vs generalizing es with
  | nil => exact ⟨es, rfl⟩
  | cons pv0 rest ih =>
    obtain ⟨p0, v0⟩ := pv0
    rcases hset : set_nested_param_value (.node es) p0 (clamp_if_bounded bs p0 (v0 * s))
      with e | t1
    · rw [write_scaled, hset]
      exact ⟨es, rfl⟩
    · obtain ⟨_, es1, ht1⟩ := set_nested_ok_node _ _ _ _ hset
      subst ht1
      rw [write_scaled, hset]
      exact ih es1

/-- Uniform writes after dictionary construction stay dictionaries. -/
theorem write_uniform_node (bs : List (List String × ℚ × ℚ)) :
    ∀ (es : PDict) (avg : ℚ) (ps : List (List String)),
    ∃ es', write_uniform bs (.node es) avg ps = .node es' := by
  intro es avg ps
  induction ps generalizing es avg with
  | nil => exact ⟨es, rfl⟩
  | cons p0 rest ih =>
    rcases hset : set_nested_param_value (.node es) p0 (clamp_if_bounded bs p0 avg)
      with e | t1
    · rw [write_uniform, hset]
      exact ⟨es, rfl⟩
    · obtain ⟨_, es1, ht1⟩ := set_nested_ok_node _ _ _ _ hset
      subst ht1
      rw [write_uniform, hset]
      exact ih es1 (clamp_if_bounded bs p0 avg)

/-- Repairing one distribution constraint touches only its identifiers and
keeps every resolvable identifier resolvable. -/
theorem repair_one_status (bs : List (List String × ℚ × ℚ)) (tol : ℚ)
    (c : DistributionConstraint) (t : PVal) :
    (∀ p, (∀ q ∈ c.params, q ≠ p) →
      get_nested_numeric (repair_one_distribution bs tol c t) p = get_nested_numeric t p) ∧
    (∀ p u, get_nested_numeric t p = .ok u →
      ∃ w, get_nested_numeric (repair_one_distribution bs tol c t) p = .ok w) := by
  rw [repair_one_distribution]
  rcases hcol : collect_param_values c.params t with e | r
  · exact ⟨fun p _ => rfl, fun p u hu => ⟨u, hu⟩⟩
  · obtain ⟨vs, ms⟩ := r
    have hent := collect_ok_entries c.params t vs ms hcol
    have hok : ∀ pv ∈ vs, ∃ u, get_nested_numeric t pv.1 = .ok u :=
      fun pv hpv => ⟨pv.2, (hent pv hpv).2⟩
    have hokm : ∀ p ∈ vs.map Prod.fst, ∃ u, get_nested_numeric t p = .ok u := by
      intro p hp
      obtain ⟨pv, hpv, rfl⟩ := List.mem_map.mp hp
      exact hok pv hpv
    simp only []
    split
    · exact ⟨fun p _ => rfl, fun p u hu => ⟨u, hu⟩⟩
    · split
      · split
        · obtain ⟨hfr, hst⟩ := write_scaled_status bs (c.target_sum / (vs.map Prod.snd).sum)
            t vs hok
          refine ⟨?_, hst⟩
          intro p hp
          refine hfr p ?_
          intro pv hpv
          exact hp pv.1 (hent pv hpv).1
        · obtain ⟨hfr, hst⟩ := write_uniform_status bs t (c.target_sum / vs.length)
            (vs.map Prod.fst) hokm
          refine ⟨?_, hst⟩
          intro p hp
          refine hfr p ?_
          intro q hq
          obtain ⟨pv, hpv, rfl⟩ := List.mem_map.mp hq
          exact hp pv.1 (hent pv hpv).1
      · exact ⟨fun p _ => rfl, fun p u hu => ⟨u, hu⟩⟩

/-- Repairing one distribution constraint preserves satisfied boundaries. -/
theorem repair_one_bounds (bs : List (List String × ℚ × ℚ)) (tol : ℚ)
    (hwf : bounds_wf bs) (hnd : (bs.map Prod.fst).Nodup)
    (c : DistributionConstraint) (t : PVal) (hb : bounds_ok bs t) :
    bounds_ok bs (repair_one_distribution bs tol c t) := by
  rw [repair_one_distribution]
  rcases hcol : collect_param_values c.params t with e | r
  · exact hb
  · obtain ⟨vs, ms⟩ := r
    have hent := collect_ok_entries c.params t vs ms hcol
    have hok : ∀ pv ∈ vs, ∃ u, get_nested_numeric t pv.1 = .ok u :=
      fun pv hpv => ⟨pv.2, (hent pv hpv).2⟩
    have hokm : ∀ p ∈ vs.map Prod.fst, ∃ u, get_nested_numeric t p = .ok u := by
      intro p hp
      obtain ⟨pv, hpv, rfl⟩ := List.mem_map.mp hp
      exact hok pv hpv
    simp only []
    split
    · exact hb
    · split
      · split
        · exact write_scaled_bounds bs _ hwf hnd t vs hok hb
        · exact write_uniform_bounds bs hwf hnd t _ (vs.map Prod.fst) hokm hb
      · exact hb

/-- A dictionary stays a dictionary through one distribution repair. -/
theorem repair_one_node (bs : List (List String × ℚ × ℚ)) (tol : ℚ)
    (c : DistributionConstraint) (es : PDict) :
    ∃ es', repair_one_distribution bs tol c (.node es) = .node es' := by
  rw [repair_one_distribution]
  rcases hcol : collect_param_values c.params (.node es) with e | r
  · exact ⟨es, rfl⟩
  · obtain ⟨vs, ms⟩ := r
    simp only []
    split
    · exact ⟨es, rfl⟩
    · split
      · split
        · exact write_scaled_node bs _ es vs
        · exact write_uniform_node bs es _ (vs.map Prod.fst)
      · exact ⟨es, rfl⟩

/-- A constraint that needs no repair is left untouched. -/
theorem repair_one_noop (bs : List (List String × ℚ × ℚ)) (tol : ℚ)
    (c : DistributionConstraint) (t : PVal) (h : dist_no_repair c tol t) :
    repair_one_distribution bs tol c t = t := by
  rw [repair_one_distribution]
  rcases hcol : collect_param_values c.params t with e | r
  · rfl
  · obtain ⟨vs, ms⟩ := r
    rcases h vs ms hcol with hvs | hsum
    · simp only []
      rw [if_pos (by simp [hvs])]
    · simp only []
      by_cases hvs0 : vs.isEmpty
      · rw [if_pos hvs0]
      · rw [if_neg hvs0, if_neg (not_lt.mpr hsum)]

/-- Repairing a fully-present, unbounded, duplicate-free sum-to-target
constraint on a dictionary leaves its sum within tolerance of the target:
proportional rescaling (or the uniform split) reaches the target exactly, and
a sum already within tolerance is left alone. -/
theorem repair_one_sum (bs : List (List String × ℚ × ℚ)) (tol : ℚ) (htol : 0 ≤ tol)
    (c : DistributionConstraint) (hne : c.params ≠ []) (hnd : c.params.Nodup)
    (hunb : ∀ p ∈ c.params, bs.lookup p = none) (es : PDict)
    (hpres : all_present c.params (.node es)) :
    dist_sum_ok c tol (repair_one_distribution bs tol c (.node es)) := by
  have hf : ∀ p ∈ c.params, get_nested_numeric (.node es) p = .ok (get_q (.node es) p) := by
    intro p hp
    obtain ⟨v, hv⟩ := hpres p hp
    rw [hv, get_q, hv]
  have hnn : ∀ p ∈ c.params, p ≠ [] :=
    fun p hp => get_ok_path_ne_nil es p _ (hf p hp)
  have hcol := collect_of_fun (get_q (.node es)) c.params (.node es) hf
  rw [repair_one_distribution, hcol]
  simp only []
  rw [if_neg (by simp [hne])]
  have hsnd : ((c.params.map fun p => (p, get_q (.node es) p)).map Prod.snd)
      = c.params.map (get_q (.node es)) := by
    rw [List.map_map]
    exact List.map_congr_left fun a _ => rfl
  rw [hsnd]
  by_cases hd : |(c.params.map (get_q (.node es))).sum - c.target_sum| > tol
  · rw [if_pos hd]
    by_cases hsp : (c.params.map (get_q (.node es))).sum > 0
    · rw [if_pos hsp]
      obtain ⟨hvals, hframe⟩ := write_scaled_values bs
        (c.target_sum / (c.params.map (get_q (.node es))).sum) (get_q (.node es))
        (.node es) c.params hnd hunb hnn hf
      have hcol2 := collect_of_fun
        (fun p => get_q (.node es) p * (c.target_sum / (c.params.map (get_q (.node es))).sum))
        c.params _ hvals
      refine ⟨_, hcol2, ?_⟩
      have hsnd2 : ((c.params.map fun p =>
          (p, get_q (.node es) p * (c.target_sum / (c.params.map (get_q (.node es))).sum))).map
            Prod.snd)
          = c.params.map (fun p =>
            get_q (.node es) p * (c.target_sum / (c.params.map (get_q (.node es))).sum)) := by
        rw [List.map_map]
        exact List.map_congr_left fun a _ => rfl
      rw [hsnd2, List.sum_map_mul_right, mul_comm,
        div_mul_cancel₀ _ (ne_of_gt hsp), sub_self, abs_zero]
      exact htol
    · rw [if_neg hsp]
      have hlen : ((c.params.map fun p => (p, get_q (.node es) p)).length : ℚ)
          = (c.params.length : ℚ) := by
        simp
      have hfst : ((c.params.map fun p => (p, get_q (.node es) p)).map Prod.fst) = c.params := by
        rw [List.map_map]
        exact List.map_id _
      rw [hlen, hfst]
      obtain ⟨hvals, hframe⟩ := write_uniform_values bs (.node es)
        (c.target_sum / c.params.length) c.params hnd hunb hnn
        (fun p hp => ⟨_, hf p hp⟩)
      have hcol2 := collect_of_fun (fun _ => c.target_sum / c.params.length) c.params _ hvals
      refine ⟨_, hcol2, ?_⟩
      have hsnd2 : ((c.params.map fun p => (p, c.target_sum / (c.params.length : ℚ))).map
          Prod.snd) = c.params.map (fun _ => c.target_sum / (c.params.length : ℚ)) := by
        rw [List.map_map]
        exact List.map_congr_left fun a _ => rfl
      rw [hsnd2, sum_map_const, mul_div_cancel₀, sub_self, abs_zero]
      · exact htol
      · simpa using List.length_pos.mpr hne |>.ne'
  · rw [if_neg hd]
    exact ⟨_, hcol, by rw [hsnd]; exact not_lt.mp hd⟩

/-- The distribution-repair fold touches only the identifiers of its
constraints and keeps every resolvable identifier resolvable. -/
theorem fold_dist_status (bs : List (List String × ℚ × ℚ)) (tol : ℚ) :
    ∀ (cs : List DistributionConstraint) (t : PVal),
    (∀ p, (∀ c ∈ cs, ∀ q ∈ c.params, q ≠ p) →
      get_nested_numeric (cs.foldl (fun t c => repair_one_distribution bs tol c t) t) p
        = get_nested_numeric t p) ∧
    (∀ p u, get_nested_numeric t p = .ok u →
      ∃ w, get_nested_numeric (cs.foldl (fun t c => repair_one_distribution bs tol c t) t) p
        = .ok w) := by
  intro cs
  induction cs with
  | nil => exact fun t => ⟨fun p _ => rfl, fun p u hu => ⟨u, hu⟩⟩
  | cons c rest ih =>
    intro t
    obtain ⟨hfr0, hst0⟩ := repair_one_status bs tol c t
    obtain ⟨hfr, hst⟩ := ih (repair_one_distribution bs tol c t)
    constructor
    · intro p hp
      rw [List.foldl_cons, hfr p (fun c' hc' => hp c' (List.mem_cons_of_mem _ hc')),
        hfr0 p (hp c (List.mem_cons_self _ _))]
    · intro p u hu
      obtain ⟨w, hw⟩ := hst0 p u hu
      rw [List.foldl_cons]
      exact hst p w hw

/-- The distribution-repair fold preserves satisfied boundaries. -/
theorem fold_dist_bounds (bs : List (List String × ℚ × ℚ)) (tol : ℚ)
    (hwf : bounds_wf bs) (hnd : (bs.map Prod.fst).Nodup) :
    ∀ (cs : List DistributionConstraint) (t : PVal), bounds_ok bs t →
    bounds_ok bs (cs.foldl (fun t c => repair_one_distribution bs tol c t) t) := by
  intro cs
  induction cs with
  | nil => exact fun t hb => hb
  | cons c rest ih =>
    intro t hb
    rw [List.foldl_cons]
    exact ih _ (repair_one_bounds bs tol hwf hnd c t hb)

/-- The distribution-repair fold keeps dictionaries dictionaries. -/
theorem fold_dist_node (bs : List (List String × ℚ × ℚ)) (tol : ℚ) :
    ∀ (cs : List DistributionConstraint) (es : PDict),
    ∃ es', cs.foldl (fun t c => repair_one_distribution bs tol c t) (.node es) = .node es' := by
  intro cs
  induction cs with
  | nil => exact fun es => ⟨es, rfl⟩
  | cons c rest ih =>
    intro es
    obtain ⟨es1, h1⟩ := repair_one_node bs tol c es
    rw [List.foldl_cons, h1]
    exact ih es1

/-- A satisfied sum-to-target constraint survives the repair of the remaining
constraints when each later constraint either is the same constraint (then it
needs no repair) or shares no identifier with it. -/
theorem fold_dist_sum_preserve (bs : List (List String × ℚ × ℚ)) (tol : ℚ)
    (c : DistributionConstraint) :
    ∀ (cs : List DistributionConstraint) (t : PVal),
    (∀ c' ∈ cs, c' = c ∨ ∀ q ∈ c'.params, q ∉ c.params) →
    dist_sum_ok c tol t →
    dist_sum_ok c tol (cs.foldl (fun t c => repair_one_distribution bs tol c t) t) := by
  intro cs
  induction cs with
  | nil => exact fun t _ hs => hs
  | cons c' rest ih =>
    intro t hdisj hs
    rw [List.foldl_cons]
    refine ih _ (fun c'' hc'' => hdisj c'' (List.mem_cons_of_mem _ hc'')) ?_
    rcases hdisj c' (List.mem_cons_self _ _) with rfl | hdq
    · have hnr : dist_no_repair c' tol t := by
        intro vs ms hcol
        obtain ⟨vs0, hcol0, hsum0⟩ := hs
        rw [hcol0] at hcol
        injection hcol with hcol
        injection hcol with h1 h2
        right
        rw [← h1]
        exact hsum0
      rw [repair_one_noop bs tol c' t hnr]
      exact hs
    · obtain ⟨vs0, hcol0, hsum0⟩ := hs
      refine ⟨vs0, ?_, hsum0⟩
      rw [collect_congr c.params t _ ?_]
      · exact hcol0
      · intro p hp
        exact (repair_one_status bs tol c' t).1 p (fun q hq hqp => hdq q hq (hqp ▸ hp))

/-- Claim C1 (amended): after a successful `repair_params` on a dictionary,
under well-formed uniquely-keyed boundary constraints and a nonnegative
tolerance, every boundary constraint holds on the result; and every registered
sum-to-target constraint with a nonempty duplicate-free identifier list, none
of whose identifiers carries a boundary constraint, which shares no identifier
with any other registered distribution constraint, and all of whose
identifiers are present, ends with its sum within the tolerance of the target.
(The unamended claim fails when a rescaled value is re-clamped to a boundary:
see the counterexample.) -/
theorem C1_repair_satisfies_constraints (H : ConstraintHandler) (es : PDict) (y : PVal)
    (htol : 0 ≤ H.constraint_tolerance)
    (hwf : bounds_wf H.boundary_constraints)
    (hnd : (H.boundary_constraints.map Prod.fst).Nodup)
    (hrep : repair_params H (.node es) = .ok y) :
    bounds_ok H.boundary_constraints y ∧
    ∀ c ∈ H.distribution_constraints, c.params ≠ [] → c.params.Nodup →
      (∀ p ∈ c.params, H.boundary_constraints.lookup p = none) →
      (∀ c' ∈ H.distribution_constraints, c' = c ∨ ∀ q ∈ c'.params, q ∉ c.params) →
      all_present c.params (.node es) →
      dist_sum_ok c H.constraint_tolerance y := by
  simp only [repair_params] at hrep
  rcases hA : repair_boundary_constraints H.boundary_constraints (.node es) with e | t1
  · rw [hA] at hrep
    simp only [bind, Except.bind] at hrep
    exact absurd hrep (by simp)
  · rw [hA] at hrep
    simp only [bind, Except.bind] at hrep
    have hy : y = repair_distribution_constraints H t1 := by
      rcases hV : validate_params H (repair_distribution_constraints H t1) with e | r
      · rw [hV] at hrep
        simp only [] at hrep
        exact absurd hrep (by simp)
      · rw [hV] at hrep
        simp only [pure, Except.pure, Except.ok.injEq] at hrep
        exact hrep.symm
    obtain ⟨es1, he1⟩ := repair_boundary_node H.boundary_constraints es t1 hA
    subst he1
    have hb1 : bounds_ok H.boundary_constraints (.node es1) :=
      repair_boundary_bounds H.boundary_constraints hwf hnd (.node es) (.node es1) hA
    constructor
    · rw [hy, repair_distribution_constraints]
      exact fold_dist_bounds H.boundary_constraints H.constraint_tolerance hwf hnd
        H.distribution_constraints (.node es1) hb1
    · intro c hc hne hndc hunb hdisj hpres
      have hpres1 : all_present c.params (.node es1) := by
        intro p hp
        obtain ⟨v, hv⟩ := hpres p hp
        exact (repair_boundary_status H.boundary_constraints (.node es) (.node es1) hA).2 p v hv
      obtain ⟨l1, l2, hsplit⟩ := List.append_of_mem hc
      obtain ⟨esm, hm⟩ := fold_dist_node H.boundary_constraints H.constraint_tolerance l1 es1
      have hpresm : all_present c.params (.node esm) := by
        intro p hp
        obtain ⟨v, hv⟩ := hpres1 p hp
        obtain ⟨w, hw⟩ :=
          (fold_dist_status H.boundary_constraints H.constraint_tolerance l1 (.node es1)).2 p v hv
        exact ⟨w, hm ▸ hw⟩
      have hsum1 : dist_sum_ok c H.constraint_tolerance
          (repair_one_distribution H.boundary_constraints H.constraint_tolerance c (.node esm)) :=
        repair_one_sum H.boundary_constraints H.constraint_tolerance htol c hne hndc hunb
          esm hpresm
      have hdisj2 : ∀ c' ∈ l2, c' = c ∨ ∀ q ∈ c'.params, q ∉ c.params := by
        intro c' hc'
        exact hdisj c'
          (by rw [hsplit]; exact List.mem_append_right _ (List.mem_cons_of_mem _ hc'))
      have hfin := fold_dist_sum_preserve H.boundary_constraints H.constraint_tolerance c l2
        (repair_one_distribution H.boundary_constraints H.constraint_tolerance c (.node esm))
        hdisj2 hsum1
      rw [hy, repair_distribution_constraints, hsplit, List.foldl_append, List.foldl_cons, hm]
      exact hfin

/-- Claim C1 counterexample: with bounds `a, b ∈ [0, 0.3]` and the constraint
`a + b = 1` on `{a: 0.3, b: 0.1}`, the rescaled value of `a` (0.75) is
re-clamped to 0.3, so the repaired assignment `{a: 0.3, b: 0.25}` sums to
0.55, outside the `1e-6` tolerance — all identifiers were present, yet the
sum-to-target half of the claim fails. -/
theorem C1_counterexample :
    (⟨[["a"], ["b"]], 1⟩ : DistributionConstraint) ∈ cex_handler.distribution_constraints ∧
    all_present [["a"], ["b"]] cex_params ∧
    ∃ y, repair_params cex_handler cex_params = .ok y ∧
      ¬ dist_sum_ok ⟨[["a"], ["b"]], 1⟩ cex_handler.constraint_tolerance y := by
  have ga : ∀ a b : ℚ, get_nested_numeric
      (.node (.cons "a" (.leaf a) (.cons "b" (.leaf b) .nil))) ["a"] = .ok a := by
    intro a b
    simp [get_nested_numeric, get_nested_param_value, PDict.find]
  have gb : ∀ a b : ℚ, get_nested_numeric
      (.node (.cons "a" (.leaf a) (.cons "b" (.leaf b) .nil))) ["b"] = .ok b := by
    intro a b
    simp [get_nested_numeric, get_nested_param_value, PDict.find]
  refine ⟨by simp [cex_handler], ?_, ?_⟩
  · intro p hp
    simp only [List.mem_cons, List.not_mem_nil, or_false] at hp
    rcases hp with rfl | rfl
    · exact ⟨3/10, ga (3/10) (1/10)⟩
    · exact ⟨1/10, gb (3/10) (1/10)⟩
  · refine ⟨.node (.cons "a" (.leaf (3/10)) (.cons "b" (.leaf (1/4)) .nil)), ?_, ?_⟩
    · have sa : ∀ a b v : ℚ, set_nested_param_value
          (.node (.cons "a" (.leaf a) (.cons "b" (.leaf b) .nil))) ["a"] v =
          .ok (.node (.cons "a" (.leaf v) (.cons "b" (.leaf b) .nil))) := by
        intro a b v
        simp [set_nested_param_value, PDict.set]
      have sb : ∀ a b v : ℚ, set_nested_param_value
          (.node (.cons "a" (.leaf a) (.cons "b" (.leaf b) .nil))) ["b"] v =
          .ok (.node (.cons "a" (.leaf a) (.cons "b" (.leaf v) .nil))) := by
        intro a b v
        simp [set_nested_param_value, PDict.set]
      have la : List.lookup ["a"]
          ([(["a"], 0, 3/10), (["b"], 0, 3/10)] : List (List String × ℚ × ℚ))
          = some (0, 3/10) := by
        simp [List.lookup]
      have lb : List.lookup ["b"]
          ([(["a"], 0, 3/10), (["b"], 0, 3/10)] : List (List String × ℚ × ℚ))
          = some (0, 3/10) := by
        simp [List.lookup]
      norm_num [repair_params, cex_handler, cex_params, repair_boundary_constraints,
        repair_distribution_constraints, repair_one_distribution, write_scaled,
        clamp_if_bounded, clampQ, collect_param_values, validate_params,
        check_boundary_constraints, check_distribution_constraints,
        check_relationship_constraints, collect_param_presence,
        ga, gb, sa, sb, la, lb, Except.map, Except.bind, bind, pure,
        Except.pure, List.isEmpty, lt_abs, abs_le]
    · rintro ⟨vs, hcol, hsum⟩
      have hc : collect_param_values [["a"], ["b"]]
          (.node (.cons "a" (.leaf (3/10)) (.cons "b" (.leaf (1/4)) .nil))) =
          .ok ([(["a"], 3/10), (["b"], 1/4)], []) := by
        rw [collect_param_values, ga (3/10) (1/4), collect_param_values, gb (3/10) (1/4)]
        rfl
      rw [hc] at hcol
      injection hcol with hcol
      injection hcol with hvs _
      rw [← hvs] at hsum
      norm_num [cex_handler, abs_le] at hsum

/-- Witness for C1 at the handler `{a ∈ [0,1]; b + c = 1}` and the assignment
`{a: 2, b: 1/2, c: 1/4}`: the repair clamps `a` to 1 and rescales `b, c` to
`2/3, 1/3`, whose sum hits the target exactly. -/
theorem C1_witness :
    bounds_ok wit_handler.boundary_constraints
      (.node (.cons "a" (.leaf 1) (.cons "b" (.leaf (2/3)) (.cons "c" (.leaf (1/3)) .nil)))) ∧
    dist_sum_ok ⟨[["b"], ["c"]], 1⟩ wit_handler.constraint_tolerance
      (.node (.cons "a" (.leaf 1) (.cons "b" (.leaf (2/3)) (.cons "c" (.leaf (1/3)) .nil)))) := by
  have ga : ∀ a b c : ℚ, get_nested_numeric (.node (.cons "a" (.leaf a)
      (.cons "b" (.leaf b) (.cons "c" (.leaf c) .nil)))) ["a"] = .ok a := by
    intro a b c
    simp [get_nested_numeric, get_nested_param_value, PDict.find]
  have gb : ∀ a b c : ℚ, get_nested_numeric (.node (.cons "a" (.leaf a)
      (.cons "b" (.leaf b) (.cons "c" (.leaf c) .nil)))) ["b"] = .ok b := by
    intro a b c
    simp [get_nested_numeric, get_nested_param_value, PDict.find]
  have gc : ∀ a b c : ℚ, get_nested_numeric (.node (.cons "a" (.leaf a)
      (.cons "b" (.leaf b) (.cons "c" (.leaf c) .nil)))) ["c"] = .ok c := by
    intro a b c
    simp [get_nested_numeric, get_nested_param_value, PDict.find]
  have sa : ∀ a b c v : ℚ, set_nested_param_value (.node (.cons "a" (.leaf a)
      (.cons "b" (.leaf b) (.cons "c" (.leaf c) .nil)))) ["a"] v =
      .ok (.node (.cons "a" (.leaf v) (.cons "b" (.leaf b) (.cons "c" (.leaf c) .nil)))) := by
    intro a b c v
    simp [set_nested_param_value, PDict.set]
  have sb : ∀ a b c v : ℚ, set_nested_param_value (.node (.cons "a" (.leaf a)
      (.cons "b" (.leaf b) (.cons "c" (.leaf c) .nil)))) ["b"] v =
      .ok (.node (.cons "a" (.leaf a) (.cons "b" (.leaf v) (.cons "c" (.leaf c) .nil)))) := by
    intro a b c v
    simp [set_nested_param_value, PDict.set]
  have sc : ∀ a b c v : ℚ, set_nested_param_value (.node (.cons "a" (.leaf a)
      (.cons "b" (.leaf b) (.cons "c" (.leaf c) .nil)))) ["c"] v =
      .ok (.node (.cons "a" (.leaf a) (.cons "b" (.leaf b) (.cons "c" (.leaf v) .nil)))) := by
    intro a b c v
    simp [set_nested_param_value, PDict.set]
  have la : List.lookup ["a"] ([(["a"], 0, 1)] : List (List String × ℚ × ℚ))
      = some (0, 1) := by
    simp [List.lookup]
  have lb : List.lookup ["b"] ([(["a"], 0, 1)] : List (List String × ℚ × ℚ)) = none := by
    simp [List.lookup]
  have lc : List.lookup ["c"] ([(["a"], 0, 1)] : List (List String × ℚ × ℚ)) = none := by
    simp [List.lookup]
  have hrep : repair_params wit_handler
      (.node (.cons "a" (.leaf 2) (.cons "b" (.leaf (1/2)) (.cons "c" (.leaf (1/4)) .nil)))) =
      .ok (.node (.cons "a" (.leaf 1)
        (.cons "b" (.leaf (2/3)) (.cons "c" (.leaf (1/3)) .nil)))) := by
    norm_num [repair_params, wit_handler, repair_boundary_constraints,
      repair_distribution_constraints, repair_one_distribution, write_scaled,
      clamp_if_bounded, clampQ, collect_param_values, validate_params,
      check_boundary_constraints, check_distribution_constraints,
      check_relationship_constraints, collect_param_presence,
      ga, gb, gc, sa, sb, sc, la, lb, lc, Except.map, Except.bind, bind, pure,
      Except.pure, List.isEmpty, lt_abs, abs_le]
  have h := C1_repair_satisfies_constraints wit_handler
    (.cons "a" (.leaf 2) (.cons "b" (.leaf (1/2)) (.cons "c" (.leaf (1/4)) .nil)))
    (.node (.cons "a" (.leaf 1) (.cons "b" (.leaf (2/3)) (.cons "c" (.leaf (1/3)) .nil))))
    (by norm_num [wit_handler]) (by intro e he; fin_cases he; norm_num)
    (by simp [wit_handler]) hrep
  refine ⟨h.1, h.2 ⟨[["b"], ["c"]], 1⟩ (by simp [wit_handler]) (by simp) (by simp) ?_ ?_ ?_⟩
  · intro p hp
    simp only [List.mem_cons, List.not_mem_nil, or_false] at hp
    rcases hp with rfl | rfl
    · simp [wit_handler, List.lookup]
    · simp [wit_handler, List.lookup]
  · intro c' hc'
    left
    simpa [wit_handler] using hc'
  · intro p hp
    simp only [List.mem_cons, List.not_mem_nil, or_false] at hp
    rcases hp with rfl | rfl
    · exact ⟨1/2, gb 2 (1/2) (1/4)⟩
    · exact ⟨1/4, gc 2 (1/2) (1/4)⟩

/-- When no boundary lookup raises `TypeError`, the boundary check completes
(`KeyError` entries are skipped). -/
theorem check_boundary_ok_of_no_typeErr : ∀ (bs : List (List String × ℚ × ℚ)) (t : PVal),
    (∀ e ∈ bs, get_nested_numeric t e.1 ≠ .error .typeErr) →
    ∃ vs, check_boundary_constraints bs t = .ok vs := by
  intro bs
  induction bs with
  | nil => exact fun t _ => ⟨[], rfl⟩
  | cons e0 rest ih =>
    intro t h
    obtain ⟨p0, mn, mx⟩ := e0
    rw [check_boundary_constraints]
    rcases hg : get_nested_numeric t p0 with er | v
    · cases er
      · exact ih t (fun e he => h e (List.mem_cons_of_mem _ he))
      · exact absurd hg (h (p0, mn, mx) (List.mem_cons_self _ _))
    · obtain ⟨vs, hvs⟩ := ih t (fun e he => h e (List.mem_cons_of_mem _ he))
      show ∃ ws, (check_boundary_constraints rest t).map
        (fun vs => if v < mn ∨ v > mx then .boundary p0 :: vs else vs) = .ok ws
      rw [hvs]
      exact ⟨_, rfl⟩

/-- A fold of distribution repairs over constraints that all need no repair
returns its input unchanged. -/
theorem fold_dist_noop (bs : List (List String × ℚ × ℚ)) (tol : ℚ) :
    ∀ (cs : List DistributionConstraint) (t : PVal),
    (∀ c ∈ cs, dist_no_repair c tol t) →
    cs.foldl (fun t c => repair_one_distribution bs tol c t) t = t := by
  intro cs
  induction cs with
  | nil => exact fun t _ => rfl
  | cons c rest ih =>
    intro t h
    simp only [List.foldl_cons]
    rw [repair_one_noop bs tol c t (h c (List.mem_cons_self _ _))]
    exact ih t (fun c' hc' => h c' (List.mem_cons_of_mem _ hc'))

/-- Claim C2 (amended): `repair_params` is the identity (up to the `Except`
wrapper) on assignments already satisfying its fixed-point conditions — every
boundary lookup `TypeError`-free with present values in range, and no
distribution constraint triggering a rescale.  On other inputs the repair is
not idempotent: see the counterexample. -/
theorem C2_repair_fixed_point (H : ConstraintHandler) (t : PVal)
    (h : repair_fixed_conditions H t) : repair_params H t = .ok t := by
  have hb : repair_boundary_constraints H.boundary_constraints t = .ok t :=
    repair_boundary_noop H.boundary_constraints t h.1
  have hd : repair_distribution_constraints H t = t := by
    rw [repair_distribution_constraints]
    exact fold_dist_noop H.boundary_constraints H.constraint_tolerance
      H.distribution_constraints t h.2
  obtain ⟨vs, hv⟩ := check_boundary_ok_of_no_typeErr H.boundary_constraints t
    (fun e he => (h.1 e he).1)
  simp only [repair_params, hb, hd, bind, Except.bind, validate_params, hv, Except.map,
    pure, Except.pure]

/-- Claim C2 counterexample: repairing `{a: 0.3, b: 0.1}` under bounds
`a, b ∈ [0, 0.3]` and the constraint `a + b = 1` gives `{a: 0.3, b: 0.25}`,
and repairing that result again rescales and re-clamps to `{a: 0.3, b: 0.3}`,
so `repair(repair(x)) ≠ repair(x)`. -/
theorem C2_counterexample :
    ∃ y1 y2, repair_params cex_handler cex_params = .ok y1 ∧
      repair_params cex_handler y1 = .ok y2 ∧ y1 ≠ y2 := by
  have ga : ∀ a b : ℚ, get_nested_numeric
      (.node (.cons "a" (.leaf a) (.cons "b" (.leaf b) .nil))) ["a"] = .ok a := by
    intro a b
    simp [get_nested_numeric, get_nested_param_value, PDict.find]
  have gb : ∀ a b : ℚ, get_nested_numeric
      (.node (.cons "a" (.leaf a) (.cons "b" (.leaf b) .nil))) ["b"] = .ok b := by
    intro a b
    simp [get_nested_numeric, get_nested_param_value, PDict.find]
  have sa : ∀ a b v : ℚ, set_nested_param_value
      (.node (.cons "a" (.leaf a) (.cons "b" (.leaf b) .nil))) ["a"] v =
      .ok (.node (.cons "a" (.leaf v) (.cons "b" (.leaf b) .nil))) := by
    intro a b v
    simp [set_nested_param_value, PDict.set]
  have sb : ∀ a b v : ℚ, set_nested_param_value
      (.node (.cons "a" (.leaf a) (.cons "b" (.leaf b) .nil))) ["b"] v =
      .ok (.node (.cons "a" (.leaf a) (.cons "b" (.leaf v) .nil))) := by
    intro a b v
    simp [set_nested_param_value, PDict.set]
  have la : List.lookup ["a"]
      ([(["a"], 0, 3/10), (["b"], 0, 3/10)] : List (List String × ℚ × ℚ))
      = some (0, 3/10) := by
    simp [List.lookup]
  have lb : List.lookup ["b"]
      ([(["a"], 0, 3/10), (["b"], 0, 3/10)] : List (List String × ℚ × ℚ))
      = some (0, 3/10) := by
    simp [List.lookup]
  refine ⟨.node (.cons "a" (.leaf (3/10)) (.cons "b" (.leaf (1/4)) .nil)),
    .node (.cons "a" (.leaf (3/10)) (.cons "b" (.leaf (3/10)) .nil)), ?_, ?_, ?_⟩
  · norm_num [repair_params, cex_handler, cex_params, repair_boundary_constraints,
      repair_distribution_constraints, repair_one_distribution, write_scaled,
      clamp_if_bounded, clampQ, collect_param_values, validate_params,
      check_boundary_constraints, check_distribution_constraints,
      check_relationship_constraints, collect_param_presence,
      ga, gb, sa, sb, la, lb, Except.map, Except.bind, bind, pure,
      Except.pure, List.isEmpty, lt_abs, abs_le]
  · norm_num [repair_params, cex_handler, repair_boundary_constraints,
      repair_distribution_constraints, repair_one_distribution, write_scaled,
      clamp_if_bounded, clampQ, collect_param_values, validate_params,
      check_boundary_constraints, check_distribution_constraints,
      check_relationship_constraints, collect_param_presence,
      ga, gb, sa, sb, la, lb, Except.map, Except.bind, bind, pure,
      Except.pure, List.isEmpty, lt_abs, abs_le]
  · intro heq
    injection heq with heq
    injection heq with hk hv hrest
    injection hrest with hk2 hv2 hrest2
    injection hv2 with hv2
    norm_num at hv2

/-- Witness for C2's fixed point: the assignment `{a: 1}` already satisfies
the handler `{a ∈ [0,1]; b + c = 1}` (the sum constraint's identifiers are
absent, so it is skipped), and `repair_params` returns it unchanged. -/
theorem C2_witness :
    repair_params wit_handler (.node (.cons "a" (.leaf 1) .nil)) =
      .ok (.node (.cons "a" (.leaf 1) .nil)) :=
  C2_repair_fixed_point wit_handler (.node (.cons "a" (.leaf 1) .nil)) (by
    constructor
    · intro e he
      simp only [wit_handler, List.mem_singleton] at he
      subst he
      constructor
      · simp [get_nested_numeric, get_nested_param_value, PDict.find]
      · intro v hv
        simp only [get_nested_numeric, get_nested_param_value, PDict.find,
          reduceIte] at hv
        injection hv with hv
        subst hv
        norm_num
    · intro c hc
      simp only [wit_handler, List.mem_singleton] at hc
      subst hc
      intro vs ms hcol
      have hc2 : collect_param_values [["b"], ["c"]] (.node (.cons "a" (.leaf 1) .nil)) =
          .ok ([], [["b"], ["c"]]) := by
        simp [collect_param_values, get_nested_numeric, get_nested_param_value, PDict.find,
          Except.map]
      rw [hc2] at hcol
      injection hcol with hcol
      injection hcol with h1 _
      exact Or.inl h1.symm)

/-!
### Penalty-shape lemmas (claim C7)
-/

/-- In a list with duplicate-free keys, two members with the same key are the
same entry. -/
theorem nodup_key_eq {β : Type} : ∀ (l : List (String × β)),
    (l.map Prod.fst).Nodup → ∀ e₁ ∈ l, ∀ e₂ ∈ l, e₁.1 = e₂.1 → e₁ = e₂ := by
  intro l
  induction l with
  | nil => intro _ e₁ h; simp at h
  | cons a rest ih =>
    intro hnd e₁ h₁ e₂ h₂ hk
    simp only [List.map_cons, List.nodup_cons] at hnd
    rcases List.mem_cons.mp h₁ with rfl | h₁'
    · rcases List.mem_cons.mp h₂ with rfl | h₂'
      · rfl
      · exact absurd (by rw [hk]; exact List.mem_map_of_mem Prod.fst h₂') hnd.1
    · rcases List.mem_cons.mp h₂ with rfl | h₂'
      · exact absurd (by rw [← hk]; exact List.mem_map_of_mem Prod.fst h₁') hnd.1
      · exact ih hnd.2 e₁ h₁' e₂ h₂' hk

/-- The key column of the realistic-range table has no duplicates. -/
theorem reasonable_ranges_keys_nodup : (reasonable_ranges.map Prod.fst).Nodup := by
  simp [reasonable_ranges]

/-- Every realistic range has positive bounds in the right order. -/
theorem reasonable_ranges_facts : ∀ e ∈ reasonable_ranges,
    0 < e.2.1 ∧ 0 < e.2.2 ∧ e.2.1 ≤ e.2.2 := by
  intro e he
  fin_cases he <;> norm_num

/-- Every share threshold sits at or above the same identifier's range
minimum. -/
theorem ranges_thresholds_compat : ∀ e ∈ reasonable_ranges, ∀ t,
    (e.1, t) ∈ share_acceptance_thresholds → e.2.1 ≤ t := by
  intro e he
  fin_cases he <;>
      (intro t ht
       simp only [share_acceptance_thresholds, List.mem_cons, List.not_mem_nil, or_false,
         Prod.mk.injEq] at ht) <;>
    (rcases ht with ⟨h, rfl⟩ | ⟨h, rfl⟩ | ⟨h, rfl⟩ <;>
      ((try simp only [String.reduceEq] at h) <;> norm_num))

/-- The volume cap sits at or above the volume identifier's range minimum. -/
theorem ranges_volume_compat : ∀ e ∈ reasonable_ranges,
    e.1 = "new_clients_per_half_year" → e.2.1 ≤ 15 := by
  intro e he
  fin_cases he <;> (intro h; (try simp only [String.reduceEq] at h) <;> norm_num)

/-- Looking up the key just consed on. -/
theorem flookup_cons_self (k : String) (u : ℚ) (x : FlatParams) :
    flookup ((k, u) :: x) k = some u := by
  show (if k = k then some u else flookup x k) = some u
  rw [if_pos rfl]

/-- Consing a different key leaves a lookup unchanged. -/
theorem flookup_cons_ne (k k' : String) (u : ℚ) (x : FlatParams) (h : k ≠ k') :
    flookup ((k, u) :: x) k' = flookup x k' := by
  show (if k = k' then some u else flookup x k') = flookup x k'
  rw [if_neg h]

/-- The range term once its lookup is known. -/
theorem range_penalty_term_of_lookup (x : FlatParams) (e : String × ℚ × ℚ) (u : ℚ)
    (hf : flookup x e.1 = some u) :
    range_penalty_term x e = if u < e.2.1 then (e.2.1 - u) / e.2.1 * 100
      else if u > e.2.2 then (u - e.2.2) / e.2.2 * 100 else 0 := by
  simp only [range_penalty_term, hf]

/-- The share term once its lookup is known. -/
theorem share_penalty_term_of_lookup (x : FlatParams) (e : String × ℚ) (u : ℚ)
    (hf : flookup x e.1 = some u) :
    share_penalty_term x e = if u > e.2 then (u - e.2) * 200 else 0 := by
  simp only [share_penalty_term, hf]

/-- The volume term once its lookup is known. -/
theorem volume_term_of_lookup (x : FlatParams) (u : ℚ)
    (hf : flookup x "new_clients_per_half_year" = some u) :
    volume_penalty_term x = if u > 15 then (u - 15) * 50 else 0 := by
  simp only [volume_penalty_term, hf]

/-- A range term only reads its own identifier. -/
theorem range_term_congr (x1 x2 : FlatParams) (e : String × ℚ × ℚ)
    (h : flookup x1 e.1 = flookup x2 e.1) :
    range_penalty_term x1 e = range_penalty_term x2 e := by
  rw [range_penalty_term, range_penalty_term, h]

/-- A share term only reads its own identifier. -/
theorem share_term_congr (x1 x2 : FlatParams) (e : String × ℚ)
    (h : flookup x1 e.1 = flookup x2 e.1) :
    share_penalty_term x1 e = share_penalty_term x2 e := by
  rw [share_penalty_term, share_penalty_term, h]

/-- The volume term only reads the volume identifier. -/
theorem volume_term_congr (x1 x2 : FlatParams)
    (h : flookup x1 "new_clients_per_half_year" = flookup x2 "new_clients_per_half_year") :
    volume_penalty_term x1 = volume_penalty_term x2 := by
  rw [volume_penalty_term, volume_penalty_term, h]

/-- A range penalty term is nonnegative when the entry's bounds are
positive. -/
theorem range_term_nonneg (x : FlatParams) (e : String × ℚ × ℚ)
    (h1 : 0 < e.2.1) (h2 : 0 < e.2.2) : 0 ≤ range_penalty_term x e := by
  rcases hf : flookup x e.1 with _ | v
  · rw [range_penalty_term, hf]
  · rw [range_penalty_term_of_lookup x e v hf]
    by_cases hlt : v < e.2.1
    · rw [if_pos hlt]
      exact mul_nonneg (div_nonneg (by linarith) h1.le) (by norm_num)
    · rw [if_neg hlt]
      by_cases hgt : v > e.2.2
      · rw [if_pos hgt]
        exact mul_nonneg (div_nonneg (by linarith) h2.le) (by norm_num)
      · rw [if_neg hgt]

/-- A share penalty term is nonnegative. -/
theorem share_term_nonneg (x : FlatParams) (e : String × ℚ) :
    0 ≤ share_penalty_term x e := by
  rcases hf : flookup x e.1 with _ | v
  · rw [share_penalty_term, hf]
  · rw [share_penalty_term_of_lookup x e v hf]
    by_cases hgt : v > e.2
    · rw [if_pos hgt]
      exact mul_nonneg (by linarith) (by norm_num)
    · rw [if_neg hgt]

/-- The volume penalty term is nonnegative. -/
theorem volume_term_nonneg (x : FlatParams) : 0 ≤ volume_penalty_term x := by
  rcases hf : flookup x "new_clients_per_half_year" with _ | v
  · rw [volume_penalty_term, hf]
  · rw [volume_term_of_lookup x v hf]
    by_cases hgt : v > 15
    · rw [if_pos hgt]
      exact mul_nonneg (by linarith) (by norm_num)
    · rw [if_neg hgt]

/-- The penalty is a sum of nonnegative terms. -/
theorem penalty_nonneg (x : FlatParams) : 0 ≤ calculate_penalty_score x := by
  rw [penalty_decomposition, penalty_component_sum]
  have h1 : 0 ≤ (reasonable_ranges.map (range_penalty_term x)).sum := by
    apply List.sum_nonneg
    intro a ha
    obtain ⟨e, he, rfl⟩ := List.mem_map.mp ha
    obtain ⟨hp1, hp2, _⟩ := reasonable_ranges_facts e he
    exact range_term_nonneg x e hp1 hp2
  have h2 : 0 ≤ (share_acceptance_thresholds.map (share_penalty_term x)).sum := by
    apply List.sum_nonneg
    intro a ha
    obtain ⟨e, he, rfl⟩ := List.mem_map.mp ha
    exact share_term_nonneg x e
  have h3 := volume_term_nonneg x
  linarith

/-- The penalty vanishes exactly on realistically-shaped assignments. -/
theorem penalty_zero_iff (x : FlatParams) :
    calculate_penalty_score x = 0 ↔ within_realistic x = true := by
  rw [penalty_decomposition, penalty_component_sum, within_realistic]
  simp only [Bool.and_eq_true, List.all_eq_true]
  have hrn : ∀ a ∈ reasonable_ranges.map (range_penalty_term x), 0 ≤ a := by
    intro a ha
    obtain ⟨e, he, rfl⟩ := List.mem_map.mp ha
    obtain ⟨hp1, hp2, _⟩ := reasonable_ranges_facts e he
    exact range_term_nonneg x e hp1 hp2
  have hsn : ∀ a ∈ share_acceptance_thresholds.map (share_penalty_term x), 0 ≤ a := by
    intro a ha
    obtain ⟨e, he, rfl⟩ := List.mem_map.mp ha
    exact share_term_nonneg x e
  constructor
  · intro h0
    have hs1 := List.sum_nonneg hrn
    have hs2 := List.sum_nonneg hsn
    have hs3 := volume_term_nonneg x
    have h1 : (reasonable_ranges.map (range_penalty_term x)).sum = 0 := by linarith
    have h2 : (share_acceptance_thresholds.map (share_penalty_term x)).sum = 0 := by
      linarith
    have h3 : volume_penalty_term x = 0 := by linarith
    refine ⟨⟨?_, ?_⟩, ?_⟩
    · intro e he
      have hz : range_penalty_term x e = 0 :=
        List.all_zero_of_le_zero_le_of_sum_eq_zero hrn h1 (List.mem_map_of_mem _ he)
      rcases hf : flookup x e.1 with _ | v
      · rfl
      · rw [range_penalty_term_of_lookup x e v hf] at hz
        obtain ⟨hp1, hp2, hp3⟩ := reasonable_ranges_facts e he
        show decide (e.2.1 ≤ v ∧ v ≤ e.2.2) = true
        rw [decide_eq_true_eq]
        constructor
        · by_contra hlt
          push_neg at hlt
          rw [if_pos hlt] at hz
          have : 0 < (e.2.1 - v) / e.2.1 * 100 :=
            mul_pos (div_pos (by linarith) hp1) (by norm_num)
          linarith
        · by_contra hgt
          push_neg at hgt
          rw [if_neg (not_lt.mpr (by linarith)), if_pos hgt] at hz
          have : 0 < (v - e.2.2) / e.2.2 * 100 :=
            mul_pos (div_pos (by linarith) hp2) (by norm_num)
          linarith
    · intro e he
      have hz : share_penalty_term x e = 0 :=
        List.all_zero_of_le_zero_le_of_sum_eq_zero hsn h2 (List.mem_map_of_mem _ he)
      rcases hf : flookup x e.1 with _ | v
      · rfl
      · rw [share_penalty_term_of_lookup x e v hf] at hz
        show decide (v ≤ e.2) = true
        rw [decide_eq_true_eq]
        by_contra hgt
        push_neg at hgt
        rw [if_pos hgt] at hz
        have : 0 < (v - e.2) * 200 := mul_pos (by linarith) (by norm_num)
        linarith
    · rcases hf : flookup x "new_clients_per_half_year" with _ | v
      · rfl
      · rw [volume_term_of_lookup x v hf] at h3
        show decide (v ≤ 15) = true
        rw [decide_eq_true_eq]
        by_contra hgt
        push_neg at hgt
        rw [if_pos hgt] at h3
        have : 0 < (v - 15) * 50 := mul_pos (by linarith) (by norm_num)
        linarith
  · rintro ⟨⟨hwr, hws⟩, hwv⟩
    have h1 : (reasonable_ranges.map (range_penalty_term x)).sum = 0 := by
      apply List.sum_eq_zero
      intro a ha
      obtain ⟨e, he, rfl⟩ := List.mem_map.mp ha
      have hb := hwr e he
      rcases hf : flookup x e.1 with _ | v
      · rw [range_penalty_term, hf]
      · rw [hf] at hb
        have hb2 : decide (e.2.1 ≤ v ∧ v ≤ e.2.2) = true := hb
        rw [decide_eq_true_eq] at hb2
        rw [range_penalty_term_of_lookup x e v hf,
          if_neg (not_lt.mpr hb2.1), if_neg (not_lt.mpr hb2.2)]
    have h2 : (share_acceptance_thresholds.map (share_penalty_term x)).sum = 0 := by
      apply List.sum_eq_zero
      intro a ha
      obtain ⟨e, he, rfl⟩ := List.mem_map.mp ha
      have hb := hws e he
      rcases hf : flookup x e.1 with _ | v
      · rw [share_penalty_term, hf]
      · rw [hf] at hb
        have hb2 : decide (v ≤ e.2) = true := hb
        rw [decide_eq_true_eq] at hb2
        rw [share_penalty_term_of_lookup x e v hf, if_neg (not_lt.mpr hb2)]
    have h3 : volume_penalty_term x = 0 := by
      rcases hf : flookup x "new_clients_per_half_year" with _ | v
      · rw [volume_penalty_term, hf]
      · rw [hf] at hwv
        have hb2 : decide (v ≤ 15) = true := hwv
        rw [decide_eq_true_eq] at hb2
        rw [volume_term_of_lookup x v hf, if_neg (not_lt.mpr hb2)]
    rw [h1, h2, h3]
    norm_num

/-- The midpoint assignment is within every range, threshold and cap. -/
theorem midpoint_within : within_realistic midpoint_assignment = true := by
  simp only [within_realistic, midpoint_assignment, reasonable_ranges,
    share_acceptance_thresholds, flookup, List.map_cons, List.map_nil, List.all_cons,
    List.all_nil, Bool.and_eq_true, decide_eq_true_eq, String.reduceEq, reduceIte]
  norm_num

/-- The shared shape of the share and volume terms is monotone in the
value. -/
theorem excess_mono (c t a b : ℚ) (hc : 0 ≤ c) (hab : a ≤ b) :
    (if a > t then (a - t) * c else 0) ≤ (if b > t then (b - t) * c else 0) := by
  by_cases ha : a > t
  · rw [if_pos ha, if_pos (lt_of_le_of_lt' hab ha)]
    exact mul_le_mul_of_nonneg_right (by linarith) hc
  · rw [if_neg ha]
    by_cases hb : b > t
    · rw [if_pos hb]
      exact mul_nonneg (by linarith) hc
    · rw [if_neg hb]

/-- Moving a value farther beyond its range maximum strictly increases the
penalty, the other identifiers held fixed. -/
theorem penalty_above_core (x : FlatParams) (name : String) (mn mx v w : ℚ)
    (hmem : (name, mn, mx) ∈ reasonable_ranges) (hv : mx < v) (hvw : v < w) :
    calculate_penalty_score ((name, v) :: x) < calculate_penalty_score ((name, w) :: x) := by
  obtain ⟨h1', h2', h3'⟩ := reasonable_ranges_facts (name, mn, mx) hmem
  have hmn0 : 0 < mn := h1'
  have hmx0 : 0 < mx := h2'
  have hmnmx : mn ≤ mx := h3'
  rw [penalty_decomposition, penalty_decomposition, penalty_component_sum,
    penalty_component_sum]
  have hterm : ∀ u : ℚ, mx < u →
      range_penalty_term ((name, u) :: x) (name, mn, mx) = (u - mx) / mx * 100 := by
    intro u hu
    simp only [range_penalty_term, flookup_cons_self]
    rw [if_neg (not_lt.mpr (hmnmx.trans hu.le)), if_pos hu]
  have hrange : (reasonable_ranges.map (range_penalty_term ((name, v) :: x))).sum <
      (reasonable_ranges.map (range_penalty_term ((name, w) :: x))).sum := by
    refine List.sum_lt_sum _ _ ?_ ⟨(name, mn, mx), hmem, ?_⟩
    · intro e he
      by_cases hk : name = e.1
      · have he2 : (name, mn, mx) = e :=
          nodup_key_eq reasonable_ranges reasonable_ranges_keys_nodup
            (name, mn, mx) hmem e he hk
        rw [← he2, hterm v hv, hterm w (hv.trans hvw)]
        exact mul_le_mul_of_nonneg_right
          ((div_le_div_iff_of_pos_right hmx0).mpr (by linarith)) (by norm_num)
      · exact le_of_eq (range_term_congr _ _ e
          (by rw [flookup_cons_ne name e.1 v x hk, flookup_cons_ne name e.1 w x hk]))
    · rw [hterm v hv, hterm w (hv.trans hvw)]
      exact mul_lt_mul_of_pos_right
        ((div_lt_div_iff_of_pos_right hmx0).mpr (by linarith)) (by norm_num)
  have hshare : (share_acceptance_thresholds.map (share_penalty_term ((name, v) :: x))).sum ≤
      (share_acceptance_thresholds.map (share_penalty_term ((name, w) :: x))).sum := by
    refine List.sum_le_sum ?_
    intro e he
    by_cases hk : name = e.1
    · have hfv : flookup ((name, v) :: x) e.1 = some v := by
        rw [← hk]; exact flookup_cons_self name v x
      have hfw : flookup ((name, w) :: x) e.1 = some w := by
        rw [← hk]; exact flookup_cons_self name w x
      rw [share_penalty_term_of_lookup _ e v hfv, share_penalty_term_of_lookup _ e w hfw]
      exact excess_mono 200 e.2 v w (by norm_num) hvw.le
    · exact le_of_eq (share_term_congr _ _ e
        (by rw [flookup_cons_ne name e.1 v x hk, flookup_cons_ne name e.1 w x hk]))
  have hvol : volume_penalty_term ((name, v) :: x) ≤ volume_penalty_term ((name, w) :: x) := by
    by_cases hk : name = "new_clients_per_half_year"
    · have hfv : flookup ((name, v) :: x) "new_clients_per_half_year" = some v := by
        rw [← hk]; exact flookup_cons_self name v x
      have hfw : flookup ((name, w) :: x) "new_clients_per_half_year" = some w := by
        rw [← hk]; exact flookup_cons_self name w x
      rw [volume_term_of_lookup _ v hfv, volume_term_of_lookup _ w hfw]
      exact excess_mono 50 15 v w (by norm_num) hvw.le
    · exact le_of_eq (volume_term_congr _ _
        (by rw [flookup_cons_ne name _ v x hk, flookup_cons_ne name _ w x hk]))
  linarith

/-- Moving a value farther below its range minimum strictly increases the
penalty: below the minimum every share threshold and the volume cap are out of
reach, so only the range term moves. -/
theorem penalty_below_core (x : FlatParams) (name : String) (mn mx v w : ℚ)
    (hmem : (name, mn, mx) ∈ reasonable_ranges) (hw : w < v) (hv : v < mn) :
    calculate_penalty_score ((name, v) :: x) < calculate_penalty_score ((name, w) :: x) := by
  obtain ⟨h1', h2', h3'⟩ := reasonable_ranges_facts (name, mn, mx) hmem
  have hmn0 : 0 < mn := h1'
  have hmx0 : 0 < mx := h2'
  have hmnmx : mn ≤ mx := h3'
  have hthr : ∀ t, (name, t) ∈ share_acceptance_thresholds → mn ≤ t :=
    ranges_thresholds_compat (name, mn, mx) hmem
  have hvolc : name = "new_clients_per_half_year" → mn ≤ 15 :=
    ranges_volume_compat (name, mn, mx) hmem
  rw [penalty_decomposition, penalty_decomposition, penalty_component_sum,
    penalty_component_sum]
  have hterm : ∀ u : ℚ, u < mn →
      range_penalty_term ((name, u) :: x) (name, mn, mx) = (mn - u) / mn * 100 := by
    intro u hu
    simp only [range_penalty_term, flookup_cons_self]
    rw [if_pos hu]
  have hrange : (reasonable_ranges.map (range_penalty_term ((name, v) :: x))).sum <
      (reasonable_ranges.map (range_penalty_term ((name, w) :: x))).sum := by
    refine List.sum_lt_sum _ _ ?_ ⟨(name, mn, mx), hmem, ?_⟩
    · intro e he
      by_cases hk : name = e.1
      · have he2 : (name, mn, mx) = e :=
          nodup_key_eq reasonable_ranges reasonable_ranges_keys_nodup
            (name, mn, mx) hmem e he hk
        rw [← he2, hterm v hv, hterm w (hw.trans hv)]
        exact mul_le_mul_of_nonneg_right
          ((div_le_div_iff_of_pos_right hmn0).mpr (by linarith)) (by norm_num)
      · exact le_of_eq (range_term_congr _ _ e
          (by rw [flookup_cons_ne name e.1 v x hk, flookup_cons_ne name e.1 w x hk]))
    · rw [hterm v hv, hterm w (hw.trans hv)]
      exact mul_lt_mul_of_pos_right
        ((div_lt_div_iff_of_pos_right hmn0).mpr (by linarith)) (by norm_num)
  have hshare : (share_acceptance_thresholds.map (share_penalty_term ((name, v) :: x))).sum =
      (share_acceptance_thresholds.map (share_penalty_term ((name, w) :: x))).sum := by
    refine congrArg List.sum (List.map_congr_left ?_)
    intro e he
    by_cases hk : name = e.1
    · have hmem2 : (name, e.2) ∈ share_acceptance_thresholds := by
        rw [hk]
        exact he
      have ht : mn ≤ e.2 := hthr e.2 hmem2
      have hfv : flookup ((name, v) :: x) e.1 = some v := by
        rw [← hk]; exact flookup_cons_self name v x
      have hfw : flookup ((name, w) :: x) e.1 = some w := by
        rw [← hk]; exact flookup_cons_self name w x
      rw [share_penalty_term_of_lookup _ e v hfv, share_penalty_term_of_lookup _ e w hfw,
        if_neg (not_lt.mpr (by linarith)), if_neg (not_lt.mpr (by linarith))]
    · exact share_term_congr _ _ e
        (by rw [flookup_cons_ne name e.1 v x hk, flookup_cons_ne name e.1 w x hk])
  have hvol : volume_penalty_term ((name, v) :: x) = volume_penalty_term ((name, w) :: x) := by
    by_cases hk : name = "new_clients_per_half_year"
    · have h15 := hvolc hk
      have hfv : flookup ((name, v) :: x) "new_clients_per_half_year" = some v := by
        rw [← hk]; exact flookup_cons_self name v x
      have hfw : flookup ((name, w) :: x) "new_clients_per_half_year" = some w := by
        rw [← hk]; exact flookup_cons_self name w x
      rw [volume_term_of_lookup _ v hfv, volume_term_of_lookup _ w hfw,
        if_neg (not_lt.mpr (by linarith)), if_neg (not_lt.mpr (by linarith))]
    · exact volume_term_congr _ _
        (by rw [flookup_cons_ne name _ v x hk, flookup_cons_ne name _ w x hk])
  linarith

/-- Claim C7: the realism penalty is nonnegative; it vanishes exactly when
every present identifier with a known realistic range lies inside it and every
present share/volume identifier is at or below its threshold/cap; the
assignment putting every ranged identifier at its range midpoint scores zero;
and with the other identifiers held fixed, the penalty strictly increases as a
single identifier moves farther beyond either bound of its realistic range. -/
theorem C7_penalty_properties :
    (∀ x : FlatParams, 0 ≤ calculate_penalty_score x) ∧
    (∀ x : FlatParams, (calculate_penalty_score x = 0 ↔ within_realistic x = true)) ∧
    calculate_penalty_score midpoint_assignment = 0 ∧
    (∀ (x : FlatParams) (name : String) (mn mx v w : ℚ),
      (name, mn, mx) ∈ reasonable_ranges → mx < v → v < w →
      calculate_penalty_score ((name, v) :: x) < calculate_penalty_score ((name, w) :: x)) ∧
    (∀ (x : FlatParams) (name : String) (mn mx v w : ℚ),
      (name, mn, mx) ∈ reasonable_ranges → w < v → v < mn →
      calculate_penalty_score ((name, v) :: x) < calculate_penalty_score ((name, w) :: x)) :=
  ⟨penalty_nonneg, penalty_zero_iff,
    (penalty_zero_iff midpoint_assignment).mpr midpoint_within,
    fun x name mn mx v w hmem hv hvw => penalty_above_core x name mn mx v w hmem hv hvw,
    fun x name mn mx v w hmem hw hv => penalty_below_core x name mn mx v w hmem hw hv⟩

/-- Witness for C7 at `price_annual_member` (realistic range `[15, 60]`):
pushing the price from 70 to 80 strictly increases the penalty. -/
theorem C7_witness :
    calculate_penalty_score [("price_annual_member", 70)] <
      calculate_penalty_score [("price_annual_member", 80)] :=
  C7_penalty_properties.2.2.2.1 [] "price_annual_member" 15 60 70 80
    (by simp [reasonable_ranges]) (by norm_num) (by norm_num)

/-!
### Heap-frame lemmas (claim C10)
-/

/-- A successful `hfind` returns a member entry. -/
theorem hfind_mem : ∀ (d : HDict) (k : String) (v : HVal),
    hfind d k = some v → (k, v) ∈ d := by
  intro d
  induction d with
  | nil => intro k v h; exact absurd h (by rw [hfind]; simp)
  | cons kv rest ih =>
    intro k v h
    obtain ⟨k', v'⟩ := kv
    rw [hfind] at h
    by_cases hk : k' = k
    · rw [if_pos hk] at h
      injection h with h
      subst hk
      subst h
      exact List.mem_cons_self _ _
    · rw [if_neg hk] at h
      exact List.mem_cons_of_mem _ (ih k v h)

/-- Entries after an `hset` come from the old dictionary or are the new
binding. -/
theorem hset_mem : ∀ (d : HDict) (k : String) (v : HVal) (kv : String × HVal),
    kv ∈ hset d k v → kv ∈ d ∨ kv = (k, v) := by
  intro d
  induction d with
  | nil =>
    intro k v kv h
    rw [hset] at h
    simp only [List.mem_singleton] at h
    exact Or.inr h
  | cons kv0 rest ih =>
    intro k v kv h
    obtain ⟨k', v'⟩ := kv0
    rw [hset] at h
    by_cases hk : k' = k
    · rw [if_pos hk] at h
      rcases List.mem_cons.mp h with rfl | hrest
      · exact Or.inr rfl
      · exact Or.inl (List.mem_cons_of_mem _ hrest)
    · rw [if_neg hk] at h
      rcases List.mem_cons.mp h with rfl | hrest
      · exact Or.inl (List.mem_cons_self _ _)
      · rcases ih k v kv hrest with hin | hnew
        · exact Or.inl (List.mem_cons_of_mem _ hin)
        · exact Or.inr hnew

/-- A nested set whose root lies at or above the copy frontier preserves the
framing invariant: it only reads and writes addresses at or above `N`. -/
theorem heap_set_framed (N : ℕ) (h₀ : ℕ → Option HDict) :
    ∀ (p : List String) (σ : HState) (a : ℕ) (v : ℚ),
    framed N h₀ σ → N ≤ a → framed N h₀ (heap_set σ a p v) := by
  intro p
  induction p with
  | nil => exact fun σ a v hf _ => hf
  | cons k rest ih =>
    intro σ a v hf ha
    obtain ⟨hnext, hlow, hhigh⟩ := hf
    cases rest with
    | nil =>
      rw [heap_set]
      rcases hd : σ.heap a with _ | d
      · exact ⟨hnext, hlow, hhigh⟩
      · simp only []
        refine ⟨hnext, ?_, ?_⟩
        · intro b hb
          show (if b = a then some (hset d k (.num v)) else σ.heap b) = h₀ b
          rw [if_neg (by omega)]
          exact hlow b hb
        · intro b d' hbN hbd kv hkv c hc
          by_cases hba : b = a
          · subst hba
            have hbd2 : (if b = b then some (hset d k (.num v)) else σ.heap b) = some d' := hbd
            rw [if_pos rfl] at hbd2
            injection hbd2 with hbd2
            subst hbd2
            rcases hset_mem d k (.num v) kv hkv with hin | hnew
            · exact hhigh b d hbN hd kv hin c hc
            · rw [hnew] at hc
              exact absurd hc (by simp)
          · have hbd2 : (if b = a then some (hset d k (.num v)) else σ.heap b) = some d' := hbd
            rw [if_neg hba] at hbd2
            exact hhigh b d' hbN hbd2 kv hkv c hc
    | cons k2 ks =>
      rw [heap_set]
      rcases hd : σ.heap a with _ | d
      · exact ⟨hnext, hlow, hhigh⟩
      · simp only []
        rcases hfk : hfind d k with _ | hv
        · simp only [HState.alloc]
          refine ih _ σ.next v ⟨?_, ?_, ?_⟩ hnext
          · show N ≤ σ.next + 1
            omega
          · intro b hb
            show (if b = a then some (hset d k (.ref σ.next))
              else if b = σ.next then some [] else σ.heap b) = h₀ b
            rw [if_neg (by omega), if_neg (by omega)]
            exact hlow b hb
          · intro b d' hbN hbd kv hkv c hc
            have hbd2 : (if b = a then some (hset d k (.ref σ.next))
                else if b = σ.next then some [] else σ.heap b) = some d' := hbd
            by_cases hba : b = a
            · rw [if_pos hba] at hbd2
              injection hbd2 with hbd2
              subst hbd2
              rcases hset_mem d k (.ref σ.next) kv hkv with hin | hnew
              · exact hhigh a d ha hd kv hin c hc
              · rw [hnew] at hc
                injection hc with hc
                omega
            · rw [if_neg hba] at hbd2
              by_cases hbn : b = σ.next
              · rw [if_pos hbn] at hbd2
                injection hbd2 with hbd2
                rw [← hbd2] at hkv
                simp at hkv
              · rw [if_neg hbn] at hbd2
                exact hhigh b d' hbN hbd2 kv hkv c hc
        · try simp only []
          cases hv with
          | num q => exact ⟨hnext, hlow, hhigh⟩
          | ref b =>
            exact ih σ b v ⟨hnext, hlow, hhigh⟩
              (hhigh a d ha hd (k, .ref b) (hfind_mem d k _ hfk) b rfl)

/-- A sequence of nested sets rooted at or above the frontier preserves the
framing invariant. -/
theorem apply_writes_framed (N : ℕ) (h₀ : ℕ → Option HDict)
    (ws : List (List String × ℚ)) :
    ∀ (σ : HState) (a : ℕ), framed N h₀ σ → N ≤ a →
    framed N h₀ (apply_writes σ a ws) := by
  induction ws with
  | nil => exact fun σ a hf _ => hf
  | cons w rest ih =>
    intro σ a hf ha
    rw [apply_writes, List.foldl_cons]
    exact ih _ a (heap_set_framed N h₀ w.1 σ a w.2 hf ha) ha

mutual
/-- A deep copy allocates only fresh addresses: the old heap is untouched, the
tail above the new frontier stays unallocated, and every new dictionary's
references point into the freshly allocated block. -/
theorem deepcopy_val_props : ∀ (σ : HState) (t : PVal),
    (∀ b, σ.next ≤ b → σ.heap b = none) →
    σ.next ≤ (deepcopy_val σ t).1.next ∧
    (∀ b, b < σ.next → (deepcopy_val σ t).1.heap b = σ.heap b) ∧
    (∀ b, (deepcopy_val σ t).1.next ≤ b → (deepcopy_val σ t).1.heap b = none) ∧
    (∀ b d, σ.next ≤ b → (deepcopy_val σ t).1.heap b = some d →
      ∀ kv ∈ d, ∀ c, kv.2 = .ref c → σ.next ≤ c ∧ c < (deepcopy_val σ t).1.next) ∧
    (∀ c, (deepcopy_val σ t).2 = .ref c → σ.next ≤ c ∧ c < (deepcopy_val σ t).1.next)
  | σ, .leaf q, h0 => by
    refine ⟨le_refl _, fun b _ => rfl, h0, ?_, ?_⟩
    · intro b d hb hbd
      have hbd2 : σ.heap b = some d := hbd
      rw [h0 b hb] at hbd2
      exact absurd hbd2 (by simp)
    · intro c hc
      exact absurd hc (by simp [deepcopy_val])
  | σ, .node d, h0 => by
    obtain ⟨hm1, hl1, ht1, hh1, hes⟩ := deepcopy_dict_props σ d h0
    have key : deepcopy_val σ (.node d)
        = (⟨fun b => if b = (deepcopy_dict σ d).1.next then some (deepcopy_dict σ d).2
              else (deepcopy_dict σ d).1.heap b, (deepcopy_dict σ d).1.next + 1⟩,
           .ref (deepcopy_dict σ d).1.next) := rfl
    rw [key]
    simp only []
    refine ⟨by omega, ?_, ?_, ?_, ?_⟩
    · intro b hb
      show (if b = (deepcopy_dict σ d).1.next then some (deepcopy_dict σ d).2
        else (deepcopy_dict σ d).1.heap b) = σ.heap b
      rw [if_neg (by omega)]
      exact hl1 b hb
    · intro b hb
      show (if b = (deepcopy_dict σ d).1.next then some (deepcopy_dict σ d).2
        else (deepcopy_dict σ d).1.heap b) = none
      have hb2 : (deepcopy_dict σ d).1.next + 1 ≤ b := hb
      rw [if_neg (by omega)]
      exact ht1 b (by omega)
    · intro b dd hbN hbd kv hkv c hc
      have hbd2 : (if b = (deepcopy_dict σ d).1.next then some (deepcopy_dict σ d).2
          else (deepcopy_dict σ d).1.heap b) = some dd := hbd
      by_cases hbn : b = (deepcopy_dict σ d).1.next
      · rw [if_pos hbn] at hbd2
        injection hbd2 with hbd2
        subst hbd2
        obtain ⟨hc1, hc2⟩ := hes kv hkv c hc
        exact ⟨hc1, by omega⟩
      · rw [if_neg hbn] at hbd2
        obtain ⟨hc1, hc2⟩ := hh1 b dd hbN hbd2 kv hkv c hc
        exact ⟨hc1, by omega⟩
    · intro c hc
      injection hc with hc
      subst hc
      exact ⟨hm1, by omega⟩

/-- Deep-copying a dictionary's entries: fresh allocations only, with the
copied entry list's references inside the freshly allocated block. -/
theorem deepcopy_dict_props : ∀ (σ : HState) (d : PDict),
    (∀ b, σ.next ≤ b → σ.heap b = none) →
    σ.next ≤ (deepcopy_dict σ d).1.next ∧
    (∀ b, b < σ.next → (deepcopy_dict σ d).1.heap b = σ.heap b) ∧
    (∀ b, (deepcopy_dict σ d).1.next ≤ b → (deepcopy_dict σ d).1.heap b = none) ∧
    (∀ b dd, σ.next ≤ b → (deepcopy_dict σ d).1.heap b = some dd →
      ∀ kv ∈ dd, ∀ c, kv.2 = .ref c → σ.next ≤ c ∧ c < (deepcopy_dict σ d).1.next) ∧
    (∀ kv ∈ (deepcopy_dict σ d).2, ∀ c, kv.2 = .ref c →
      σ.next ≤ c ∧ c < (deepcopy_dict σ d).1.next)
  | σ, .nil, h0 => by
    refine ⟨le_refl _, fun b _ => rfl, h0, ?_, ?_⟩
    · intro b dd hb hbd
      have hbd2 : σ.heap b = some dd := hbd
      rw [h0 b hb] at hbd2
      exact absurd hbd2 (by simp)
    · intro kv hkv
      exact absurd hkv (by simp [deepcopy_dict])
  | σ, .cons k v rest, h0 => by
    obtain ⟨vm, vl, vt, vh, vr⟩ := deepcopy_val_props σ v h0
    obtain ⟨dm, dl, dt, dh, de⟩ := deepcopy_dict_props (deepcopy_val σ v).1 rest vt
    have key : deepcopy_dict σ (.cons k v rest)
        = ((deepcopy_dict (deepcopy_val σ v).1 rest).1,
           (k, (deepcopy_val σ v).2) :: (deepcopy_dict (deepcopy_val σ v).1 rest).2) := rfl
    rw [key]
    simp only []
    refine ⟨le_trans vm dm, ?_, dt, ?_, ?_⟩
    · intro b hb
      rw [dl b (by omega)]
      exact vl b hb
    · intro b dd hbN hbd kv hkv c hc
      by_cases hbv : (deepcopy_val σ v).1.next ≤ b
      · obtain ⟨hc1, hc2⟩ := dh b dd hbv hbd kv hkv c hc
        exact ⟨le_trans vm hc1, hc2⟩
      · push_neg at hbv
        rw [dl b hbv] at hbd
        obtain ⟨hc1, hc2⟩ := vh b dd hbN hbd kv hkv c hc
        exact ⟨hc1, by omega⟩
    · intro kv hkv c hc
      rcases List.mem_cons.mp hkv with rfl | hin
      · obtain ⟨hc1, hc2⟩ := vr c hc
        exact ⟨hc1, by omega⟩
      · obtain ⟨hc1, hc2⟩ := de kv hin c hc
        exact ⟨le_trans vm hc1, hc2⟩
end

/-- Reading below the copy frontier sees only the old heap: if two heaps agree
below `N` and the old heap's references are closed below `N`, every fuelled
read of a value rooted below `N` coincides. -/
theorem read_agree_all (N : ℕ) (h₀ h₁ : ℕ → Option HDict)
    (hagree : ∀ b, b < N → h₁ b = h₀ b)
    (hclosed : ∀ b d, h₀ b = some d → ∀ kv ∈ d, ∀ c, kv.2 = .ref c → c < N) :
    ∀ n : ℕ,
    (∀ hv : HVal, (∀ c, hv = .ref c → c < N) → read_val n h₁ hv = read_val n h₀ hv) ∧
    (∀ d : HDict, (∀ kv ∈ d, ∀ c, kv.2 = .ref c → c < N) →
      read_dict n h₁ d = read_dict n h₀ d) := by
  intro n
  induction n with
  | zero =>
    have hval : ∀ hv : HVal, read_val 0 h₁ hv = read_val 0 h₀ hv := by
      intro hv
      cases hv <;> simp only [read_val]
    refine ⟨fun hv _ => hval hv, ?_⟩
    intro d hd
    clear hd
    induction d with
    | nil => simp only [read_dict]
    | cons kv rest ihd =>
      obtain ⟨k, v⟩ := kv
      rw [read_dict, read_dict, hval v, ihd]
  | succ n ihn =>
    have hval : ∀ hv : HVal, (∀ c, hv = .ref c → c < N) →
        read_val (n + 1) h₁ hv = read_val (n + 1) h₀ hv := by
      intro hv hc
      cases hv with
      | num q => simp only [read_val]
      | ref c =>
        have hcN : c < N := hc c rfl
        rw [read_val, read_val, hagree c hcN]
        rcases hd : h₀ c with _ | d
        · rfl
        · simp only []
          rw [ihn.2 d (hclosed c d hd)]
    refine ⟨hval, ?_⟩
    intro d hd
    induction d with
    | nil => simp only [read_dict]
    | cons kv rest ihd =>
      obtain ⟨k, v⟩ := kv
      rw [read_dict, read_dict,
        hval v (fun c hcc => hd (k, v) (List.mem_cons_self _ _) c hcc),
        ihd (fun kv' hkv' c hcc => hd kv' (List.mem_cons_of_mem _ hkv') c hcc)]

/-- Claim C10: `repair_params` never mutates its argument.  In the object-heap
model, repairing the dictionary object at `a` (read, deep-copied, then mutated
through the repair's nested-set trace) leaves every read of the argument
object unchanged: the same value tree is read back after the call. -/
theorem C10_repair_does_not_mutate_argument (H : ConstraintHandler) (fuel : ℕ)
    (σ : HState) (a : ℕ) (hwf : σ.WF) (t : PVal)
    (hread : read_val fuel σ.heap (.ref a) = some t) :
    read_val fuel (heap_repair_params H fuel σ a).heap (.ref a) = some t := by
  have haN : a < σ.next := by
    by_contra hge
    push_neg at hge
    have hn : σ.heap a = none := hwf.1 a hge
    cases fuel with
    | zero =>
      rw [read_val] at hread
      exact absurd hread (by simp)
    | succ n =>
      rw [read_val, hn] at hread
      exact absurd hread (by simp)
  rw [heap_repair_params, hread]
  simp only []
  rcases hdc : deepcopy_val σ t with ⟨σ1, r⟩
  have props := deepcopy_val_props σ t hwf.1
  rw [hdc] at props
  obtain ⟨hm1, hl1, ht1, hh1, hr1⟩ := props
  cases r with
  | num q =>
    simp only []
    rw [(read_agree_all σ.next σ.heap σ1.heap hl1 hwf.2 fuel).1 (.ref a)
      (fun c hc => by injection hc with hc; omega)]
    exact hread
  | ref b =>
    simp only []
    obtain ⟨hbN, _⟩ := hr1 b rfl
    have hfr : framed σ.next σ.heap σ1 :=
      ⟨hm1, hl1, fun b' d hb' hbd kv hkv c hc => (hh1 b' d hb' hbd kv hkv c hc).1⟩
    have hfr2 := apply_writes_framed σ.next σ.heap (repair_params_trace H t).2 σ1 b hfr hbN
    rw [(read_agree_all σ.next σ.heap _ hfr2.2.1 hwf.2 fuel).1 (.ref a)
      (fun c hc => by injection hc with hc; omega)]
    exact hread

/-- Witness for C10 on the one-object heap `{0 ↦ {a: 1}}`: after repairing
the object at address 0 (under the witness handler), reading it back still
gives `{a: 1}`. -/
theorem C10_witness :
    read_val 1 (heap_repair_params wit_handler 1 wit10_state 0).heap (.ref 0) =
      some (.node (.cons "a" (.leaf 1) .nil)) :=
  C10_repair_does_not_mutate_argument wit_handler 1 wit10_state 0
    (by
      constructor
      · intro b hb
        have hb2 : 1 ≤ b := hb
        show (if b = 0 then some [("a", HVal.num 1)] else none) = none
        rw [if_neg (by omega)]
      · intro b d hbd kv hkv c hc
        have hbd2 : (if b = 0 then some [("a", HVal.num 1)] else none) = some d := hbd
        by_cases hb0 : b = 0
        · rw [if_pos hb0] at hbd2
          injection hbd2 with hbd2
          rw [← hbd2] at hkv
          simp only [List.mem_singleton] at hkv
          rw [hkv] at hc
          exact absurd hc (by simp)
        · rw [if_neg hb0] at hbd2
          exact absurd hbd2 (by simp))
    (.node (.cons "a" (.leaf 1) .nil)) (by simp [read_val, read_dict, wit10_state])

end LumaSpec
